import Mathlib

/-!
Formal model of the `lambda` Go package (KarpelesLab/lambda): the term
algebra (`Var`, `Abstraction`, `Application`, plus the deferred-parse
`LazyScript`), free variables, capture-avoiding substitution,
alpha-conversion, beta/eta single-step reduction, the bounded `Reduce`
driver, Church numerals with the `ToInt` decoder, and the recursive-descent
parser `Parse` with its named-constant registry `lookupConstant`.

Modelling conventions:
* Go's unbounded recursion through `LazyScript.parse` (an operation on a
  `LazyScript` node parses its script and recurses into the result, which
  may contain further `LazyScript` leaves) is made total with a fuel
  parameter.  Fuel is consumed only when unwrapping a `LazyScript` (and in
  the alpha-renaming branch of `Substitute`), so on lazy-free terms every
  equation below is uniform in the fuel.  Fuel-exhaustion branches are
  commented; they are unreachable for adequate fuel.
* Go strings are modelled as `String`/`List Char`.  The parser walks one
  `Char` at a time; the Go original walks bytes and special-cases the
  two-byte UTF-8 encoding of 'λ', which coincides with the per-char model
  on ASCII input (all inputs in this file), except that positions count
  chars rather than bytes.
* Go's `unicode.IsLetter`/`IsDigit` applied to a single byte agree with
  `Char.isAlpha`/`Char.isDigit` on ASCII.
* `fmt.Sprintf("%s%d", base, i)` is modelled by `base ++ natDec i` where
  `natDec` is decimal rendering, and `%q` by `goQuote` (enough of Go's
  quoting for the ASCII strings that arise here).
* `map[string]bool` sets are modelled as `Finset String`.
-/

namespace LambdaGo

/-- Decimal digits of `n`, most significant first, with explicit fuel so the
definition is structural (fuel `n+1` always suffices since `n / 10 < n`).
Models the digit sequence printed by Go's `%d` verb. -/
def natDecAux : Nat → Nat → List Char
  | 0, _ => []
  | fuel+1, n =>
    if n < 10 then [Nat.digitChar n]
    else natDecAux fuel (n / 10) ++ [Nat.digitChar (n % 10)]

/-- Decimal rendering of a natural number (Go's `%d`). -/
def natDec (n : Nat) : String := ⟨natDecAux (n+1) n⟩

/-- Decimal valuation of a digit string with accumulator; this is exactly the
`num = num*10 + int(name[i]-'0')` loop of Go's `lookupConstant`. -/
def digitsVal : Nat → List Char → Nat
  | acc, [] => acc
  | acc, c :: cs => digitsVal (acc * 10 + (c.toNat - '0'.toNat)) cs

/-- Character class of Go's `unicode.IsLetter(r) || unicode.IsDigit(r) || r == '_'`
(per-byte, so ASCII). -/
def isIdentChar (c : Char) : Bool := c.isAlpha || c.isDigit || c = '_'

/-- Character class of Go's `unicode.IsLetter(r) || r == '_'` for the first
identifier character. -/
def isIdentStart (c : Char) : Bool := c.isAlpha || c = '_'

/-- Term is the type of all lambda calculus terms: the Go interface with its
four implementations `Var`, `Abstraction`, `Application` and `*LazyScript`. -/
inductive Term where
  | Var (name : String)
  | Abstraction (param : String) (body : Term)
  | Application (fn : Term) (arg : Term)
  | LazyScript (script : String)
  deriving DecidableEq, Repr

/-- Decidable equality for `Except`, so concrete parser results can be
settled by `decide`. -/
instance exceptDecEq {α β : Type} [DecidableEq α] [DecidableEq β] :
    DecidableEq (Except α β) :=
  fun a b => match a, b with
  | .error x, .error y =>
    if h : x = y then isTrue (h ▸ rfl) else isFalse (fun hc => h (Except.error.inj hc))
  | .ok x, .ok y =>
    if h : x = y then isTrue (h ▸ rfl) else isFalse (fun hc => h (Except.ok.inj hc))
  | .error _, .ok _ => isFalse Except.noConfusion
  | .ok _, .error _ => isFalse Except.noConfusion

/-- Number of term nodes; used as the structural component of termination
measures (Go's `sizeOf` analogue that ignores the strings stored in nodes). -/
def termSize : Term → Nat
  | .Var _ => 1
  | .Abstraction _ b => termSize b + 1
  | .Application f a => termSize f + termSize a + 1
  | .LazyScript _ => 1

/-- Body `f (f (... (f x)...))` with `n` applications of `f`, the loop inside
Go's `ChurchNumeral`. -/
def churchBody : Nat → Term
  | 0 => Term.Var "x"
  | n+1 => Term.Application (Term.Var "f") (churchBody n)

/-- ChurchNumeral creates the Church numeral `λf.λx.f^n x`.  The Go function
takes an `int` and aborts on negative input; `Nat` captures the documented
non-negative precondition. -/
def ChurchNumeral (n : Nat) : Term :=
  Term.Abstraction "f" (Term.Abstraction "x" (churchBody n))

/-- I := λx.x -/
def I : Term := Term.Abstraction "x" (Term.Var "x")

/-- K := λx.λy.x -/
def K : Term := Term.Abstraction "x" (Term.Abstraction "y" (Term.Var "x"))

/-- S := λx.λy.λz.x z (y z) -/
def S : Term :=
  Term.Abstraction "x" (Term.Abstraction "y" (Term.Abstraction "z"
    (Term.Application
      (Term.Application (Term.Var "x") (Term.Var "z"))
      (Term.Application (Term.Var "y") (Term.Var "z")))))

/-- B := λx.λy.λz.x (y z) -/
def B : Term :=
  Term.Abstraction "x" (Term.Abstraction "y" (Term.Abstraction "z"
    (Term.Application (Term.Var "x")
      (Term.Application (Term.Var "y") (Term.Var "z")))))

/-- C := λx.λy.λz.x z y -/
def C : Term :=
  Term.Abstraction "x" (Term.Abstraction "y" (Term.Abstraction "z"
    (Term.Application
      (Term.Application (Term.Var "x") (Term.Var "z"))
      (Term.Var "y"))))

/-- W := λx.λy.x y y -/
def W : Term :=
  Term.Abstraction "x" (Term.Abstraction "y"
    (Term.Application
      (Term.Application (Term.Var "x") (Term.Var "y"))
      (Term.Var "y")))

/-- U := λx.x x -/
def U : Term :=
  Term.Abstraction "x" (Term.Application (Term.Var "x") (Term.Var "x"))

/-- OMEGA := U U -/
def OMEGA : Term := Term.Application U U

/-- OMEGA_LOWER is an alias for U. -/
def OMEGA_LOWER : Term := U

/-- DELTA is an alias for U. -/
def DELTA : Term := U

/-- TRUE := λx.λy.x (same as K). -/
def TRUE : Term := K

/-- FALSE := λx.λy.y -/
def FALSE : Term := Term.Abstraction "x" (Term.Abstraction "y" (Term.Var "y"))

/-- T is an alias for TRUE. -/
def T : Term := TRUE

/-- F is an alias for FALSE. -/
def F : Term := FALSE

/-- AND := λp.λq.p q p -/
def AND : Term :=
  Term.Abstraction "p" (Term.Abstraction "q"
    (Term.Application
      (Term.Application (Term.Var "p") (Term.Var "q"))
      (Term.Var "p")))

/-- OR := λp.λq.p p q -/
def OR : Term :=
  Term.Abstraction "p" (Term.Abstraction "q"
    (Term.Application
      (Term.Application (Term.Var "p") (Term.Var "p"))
      (Term.Var "q")))

/-- NOT := λp.p FALSE TRUE -/
def NOT : Term :=
  Term.Abstraction "p"
    (Term.Application (Term.Application (Term.Var "p") FALSE) TRUE)

/-- IF := λb.λx.λy.b x y -/
def IF : Term :=
  Term.Abstraction "b" (Term.Abstraction "x" (Term.Abstraction "y"
    (Term.Application
      (Term.Application (Term.Var "b") (Term.Var "x"))
      (Term.Var "y"))))

/-- IFTHENELSE is an alias for IF. -/
def IFTHENELSE : Term := IF

/-- ZERO := λf.λx.x -/
def ZERO : Term := Term.Abstraction "f" (Term.Abstraction "x" (Term.Var "x"))

/-- SUCC := λn.λf.λx.f (n f x) -/
def SUCC : Term :=
  Term.Abstraction "n" (Term.Abstraction "f" (Term.Abstraction "x"
    (Term.Application (Term.Var "f")
      (Term.Application
        (Term.Application (Term.Var "n") (Term.Var "f"))
        (Term.Var "x")))))

/-- ONE := SUCC ZERO -/
def ONE : Term := Term.Application SUCC ZERO

/-- PLUS := λm.λn.λf.λx.m f (n f x) -/
def PLUS : Term :=
  Term.Abstraction "m" (Term.Abstraction "n" (Term.Abstraction "f"
    (Term.Abstraction "x"
      (Term.Application
        (Term.Application (Term.Var "m") (Term.Var "f"))
        (Term.Application
          (Term.Application (Term.Var "n") (Term.Var "f"))
          (Term.Var "x"))))))

/-- PAIR := λx.λy.λf.f x y -/
def PAIR : Term :=
  Term.Abstraction "x" (Term.Abstraction "y" (Term.Abstraction "f"
    (Term.Application
      (Term.Application (Term.Var "f") (Term.Var "x"))
      (Term.Var "y"))))

/-- FIRST := λp.p TRUE -/
def FIRST : Term :=
  Term.Abstraction "p" (Term.Application (Term.Var "p") TRUE)

/-- SECOND := λp.p FALSE -/
def SECOND : Term :=
  Term.Abstraction "p" (Term.Application (Term.Var "p") FALSE)

/-- PHI := λx.PAIR (SECOND x) (SUCC (SECOND x)) -/
def PHI : Term :=
  Term.Abstraction "x"
    (Term.Application
      (Term.Application PAIR
        (Term.Application SECOND (Term.Var "x")))
      (Term.Application SUCC
        (Term.Application SECOND (Term.Var "x"))))

/-- PRED := λn.FIRST (n PHI (PAIR 0 0)) -/
def PRED : Term :=
  Term.Abstraction "n"
    (Term.Application FIRST
      (Term.Application
        (Term.Application (Term.Var "n") PHI)
        (Term.Application
          (Term.Application PAIR (ChurchNumeral 0))
          (ChurchNumeral 0))))

/-- SUB := λm.λn.n PRED m -/
def SUB : Term :=
  Term.Abstraction "m" (Term.Abstraction "n"
    (Term.Application
      (Term.Application (Term.Var "n") PRED)
      (Term.Var "m")))

/-- MULT := λm.λn.λf.m (n f) -/
def MULT : Term :=
  Term.Abstraction "m" (Term.Abstraction "n" (Term.Abstraction "f"
    (Term.Application (Term.Var "m")
      (Term.Application (Term.Var "n") (Term.Var "f")))))

/-- POW := λb.λn.n b -/
def POW : Term :=
  Term.Abstraction "b" (Term.Abstraction "n"
    (Term.Application (Term.Var "n") (Term.Var "b")))

/-- ISZERO := λn.n (λx.FALSE) TRUE -/
def ISZERO : Term :=
  Term.Abstraction "n"
    (Term.Application
      (Term.Application (Term.Var "n") (Term.Abstraction "x" FALSE))
      TRUE)

/-- LEQ := λm.λn.ISZERO (SUB m n) -/
def LEQ : Term :=
  Term.Abstraction "m" (Term.Abstraction "n"
    (Term.Application ISZERO
      (Term.Application
        (Term.Application SUB (Term.Var "m"))
        (Term.Var "n"))))

/-- LT := λm.λn.NOT (LEQ n m) -/
def LT : Term :=
  Term.Abstraction "m" (Term.Abstraction "n"
    (Term.Application NOT
      (Term.Application
        (Term.Application LEQ (Term.Var "n"))
        (Term.Var "m"))))

/-- STEP2 := λp.PAIR (IF (SECOND p) (SUCC (FIRST p)) (FIRST p)) (NOT (SECOND p)) -/
def STEP2 : Term :=
  Term.Abstraction "p"
    (Term.Application
      (Term.Application PAIR
        (Term.Application
          (Term.Application
            (Term.Application IF
              (Term.Application SECOND (Term.Var "p")))
            (Term.Application SUCC
              (Term.Application FIRST (Term.Var "p"))))
          (Term.Application FIRST (Term.Var "p"))))
      (Term.Application NOT
        (Term.Application SECOND (Term.Var "p"))))

/-- INIT2 := PAIR ZERO FALSE -/
def INIT2 : Term := Term.Application (Term.Application PAIR ZERO) FALSE

/-- DIV2 := λn.FIRST (n STEP2 INIT2) -/
def DIV2 : Term :=
  Term.Abstraction "n"
    (Term.Application FIRST
      (Term.Application
        (Term.Application (Term.Var "n") STEP2)
        INIT2))

/-- ISODD := λn.SECOND (n STEP2 INIT2) -/
def ISODD : Term :=
  Term.Abstraction "n"
    (Term.Application SECOND
      (Term.Application
        (Term.Application (Term.Var "n") STEP2)
        INIT2))

/-- ISEVEN := λn.NOT (ISODD n) -/
def ISEVEN : Term :=
  Term.Abstraction "n"
    (Term.Application NOT (Term.Application ISODD (Term.Var "n")))

/-- MUL is an alias for MULT. -/
def MUL : Term := MULT

/-- NIL := λx.TRUE -/
def NIL : Term := Term.Abstraction "x" TRUE

/-- NULL := λp.p (λx.λy.FALSE) -/
def NULL : Term :=
  Term.Abstraction "p"
    (Term.Application (Term.Var "p")
      (Term.Abstraction "x" (Term.Abstraction "y" FALSE)))

/-- Y := λf.(λx.f (x x)) (λx.f (x x)) -/
def Y : Term :=
  Term.Abstraction "f"
    (Term.Application
      (Term.Abstraction "x"
        (Term.Application (Term.Var "f")
          (Term.Application (Term.Var "x") (Term.Var "x"))))
      (Term.Abstraction "x"
        (Term.Application (Term.Var "f")
          (Term.Application (Term.Var "x") (Term.Var "x")))))

/-- MOD is registered as a deferred script (Go `MakeLazyScript`); the string
is the exact Go raw-string literal. -/
def MOD : Term :=
  Term.LazyScript "\n\t_Y (\\rec.\\m.\\n.\n\t\t(_ISZERO n) _ZERO\n\t\t((_LT m n) m (rec (_SUB m n) n)))\n"

/-- POWMOD_PRIME is registered as a deferred script. -/
def POWMOD_PRIME : Term :=
  Term.LazyScript "\n\t_Y (\\rec.\\a.\\e.\\m.\\r.\n\t\t_IF (_ISZERO e)\n\t\t\t(_IF (_ISZERO m) r (_MOD r m))\n\t\t\t(_IF (_ISEVEN e)\n\t\t\t\t(rec (_MOD (_MUL a a) m) (_DIV2 e) m r)\n\t\t\t\t(rec (_MOD (_MUL a a) m) (_DIV2 e) m (_MOD (_MUL r a) m))))\n"

/-- POWMOD is registered as a deferred script. -/
def POWMOD : Term :=
  Term.LazyScript "\n\t_Y (\\rec.\\a.\\e.\\m.\n\t\t_IF (_ISZERO e)\n\t\t\t(_IF (_ISZERO m) _ONE (_MOD _ONE m))\n\t\t\t(_IF (_ISEVEN e)\n\t\t\t\t(rec (_MOD (_MUL a a) m) (_DIV2 e) m)\n\t\t\t\t(_MOD (_MUL a (rec (_MOD (_MUL a a) m) (_DIV2 e) m)) m)))\n"

/-- FACTORIAL is registered as a deferred script. -/
def FACTORIAL : Term :=
  Term.LazyScript "\n\t_Y (\\f.\\n.\n\t\t(_ISZERO n) _1 (_MULT n (f (_PRED n))))\n"

/-- FAC := λn.λf.n (λf.λn.n (f (λf.λx.n f (f x)))) (λx.f) (λx.x) -/
def FAC : Term :=
  Term.Abstraction "n" (Term.Abstraction "f"
    (Term.Application
      (Term.Application
        (Term.Application (Term.Var "n")
          (Term.Abstraction "f" (Term.Abstraction "n"
            (Term.Application (Term.Var "n")
              (Term.Application (Term.Var "f")
                (Term.Abstraction "f" (Term.Abstraction "x"
                  (Term.Application
                    (Term.Application (Term.Var "n") (Term.Var "f"))
                    (Term.Application (Term.Var "f") (Term.Var "x"))))))))))
        (Term.Abstraction "x" (Term.Var "f")))
      (Term.Abstraction "x" (Term.Var "x"))))

/-- FIB := λn.λf.n (λc.λa.λb.c b (λx.a (b x))) (λx.λy.x) (λx.x) f -/
def FIB : Term :=
  Term.Abstraction "n" (Term.Abstraction "f"
    (Term.Application
      (Term.Application
        (Term.Application (Term.Var "n")
          (Term.Abstraction "c" (Term.Abstraction "a" (Term.Abstraction "b"
            (Term.Application
              (Term.Application (Term.Var "c") (Term.Var "b"))
              (Term.Abstraction "x"
                (Term.Application (Term.Var "a")
                  (Term.Application (Term.Var "b") (Term.Var "x")))))))))
        (Term.Abstraction "x" (Term.Abstraction "y" (Term.Var "x"))))
      (Term.Abstraction "x" (Term.Var "x"))))

/-- The defined-constants map literal inside Go's `lookupConstant`. -/
def constantsTable : List (String × Term) :=
  [("_I", I), ("_K", K), ("_S", S), ("_B", B), ("_C", C), ("_W", W),
   ("_U", U), ("_OMEGA", OMEGA), ("_OMEGA_LOWER", OMEGA_LOWER),
   ("_DELTA", DELTA), ("_TRUE", TRUE), ("_FALSE", FALSE), ("_T", T),
   ("_F", F), ("_AND", AND), ("_OR", OR), ("_NOT", NOT), ("_IF", IF),
   ("_IFTHENELSE", IFTHENELSE), ("_ZERO", ZERO), ("_ONE", ONE),
   ("_SUCC", SUCC), ("_PLUS", PLUS), ("_SUB", SUB), ("_MULT", MULT),
   ("_POW", POW), ("_MOD", MOD), ("_ISZERO", ISZERO), ("_LEQ", LEQ),
   ("_LT", LT), ("_PAIR", PAIR), ("_FIRST", FIRST), ("_SECOND", SECOND),
   ("_PHI", PHI), ("_PRED", PRED), ("_STEP2", STEP2), ("_INIT2", INIT2),
   ("_DIV2", DIV2), ("_ISODD", ISODD), ("_ISEVEN", ISEVEN), ("_MUL", MUL),
   ("_POWMOD", POWMOD), ("_POWMOD_PRIME", POWMOD_PRIME), ("_NIL", NIL),
   ("_NULL", NULL), ("_Y", Y), ("_FACTORIAL", FACTORIAL), ("_FAC", FAC),
   ("_FIB", FIB)]

/-- lookupConstant looks up a constant by name: digit constants `_0`, `_1`, …
are synthesized as Church numerals before the defined-constants map is
consulted; an absent name yields `none`. -/
def lookupConstant (name : String) : Option Term :=
  match name.data with
  | '_' :: rest =>
    if rest ≠ [] ∧ rest.all Char.isDigit then
      some (ChurchNumeral (digitsVal 0 rest))
    else
      (constantsTable.find? (fun p => p.1 = name)).map (fun p => p.2)
  | _ => (constantsTable.find? (fun p => p.1 = name)).map (fun p => p.2)

/-- Parser state: the Go `Parser` struct's `input`/`pos` pair, represented as
the not-yet-consumed characters plus the absolute position (for error
messages).  Each parse function returns its result together with the final
state, modelling Go's in-place mutation of `p.pos` (which persists even when
a parse function returns an error). -/
structure PState where
  rest : List Char
  pos : Nat
  deriving DecidableEq, Repr

/-- Core loop of `skipWhitespace`. -/
def skipWhitespaceCore : List Char → Nat → List Char × Nat
  | c :: cs, p => if c.isWhitespace then skipWhitespaceCore cs (p+1) else (c :: cs, p)
  | [], p => ([], p)

/-- skipWhitespace skips whitespace characters (Go `unicode.IsSpace`). -/
def skipWhitespace (st : PState) : PState :=
  let r := skipWhitespaceCore st.rest st.pos
  ⟨r.1, r.2⟩

/-- Longest prefix of identifier characters and the remainder; the scanning
loop of Go's `parseIdentifier`. -/
def takeIdentChars : List Char → List Char × List Char
  | c :: cs =>
    if isIdentChar c then
      let r := takeIdentChars cs
      (c :: r.1, r.2)
    else ([], c :: cs)
  | [] => ([], [])

/-- parseIdentifier parses a variable name: a letter or underscore followed by
letters, digits and underscores; returns `""` (without consuming) when the
first character does not qualify. -/
def parseIdentifier (st : PState) : String × PState :=
  match st.rest with
  | c :: cs =>
    if isIdentStart c then
      let r := takeIdentChars cs
      (⟨c :: r.1⟩, ⟨r.2, st.pos + 1 + r.1.length⟩)
    else ("", st)
  | [] => ("", st)

/-- Quoting of one character for Go's `%q` verb (printable-ASCII fragment,
which covers every string quoted in this development). -/
def goQuoteChar (c : Char) : List Char :=
  if c = '"' then ['\\', '"']
  else if c = '\\' then ['\\', '\\']
  else [c]

/-- Go's `%q` rendering of a string (printable-ASCII fragment). -/
def goQuote (cs : List Char) : String :=
  ⟨'"' :: (cs.map goQuoteChar).flatten ++ ['"']⟩

/-- Go's `strings.TrimSpace`. -/
def trimChars (cs : List Char) : List Char :=
  ((cs.dropWhile Char.isWhitespace).reverse.dropWhile Char.isWhitespace).reverse

/-- Resolution of a parsed identifier, the tail of Go's `parseTerm`: a name
beginning with an underscore is looked up via `lookupConstant` and, when
found, the constant is returned; otherwise the name is a literal variable. -/
def resolveIdent (name : String) : Term :=
  if name.data.head? = some '_' then
    match lookupConstant name with
    | some obj => obj
    | none => Term.Var name
  else Term.Var name

/-- Fuel with which `Parse` runs the mutually recursive descent; each level of
the Go recursion consumes at least one input character per three call levels,
so this bound makes the fuel-exhaustion branches unreachable. -/
def parseFuel (cs : List Char) : Nat := 3 * cs.length + 3

mutual

/-- parseExpr parses a complete expression: an abstraction when the input
starts with 'λ' or '\', otherwise an application. -/
def parseExpr : Nat → PState → Except String Term × PState
  | 0, st => (Except.error "parser fuel exhausted", st)
  | fuel+1, st =>
    let st1 := skipWhitespace st
    match st1.rest with
    | [] => (Except.error "unexpected end of input", st1)
    | c :: _ =>
      if c = 'λ' || c = '\\' then parseAbstraction fuel st1
      else parseApplication fuel st1

/-- parseAbstraction parses `λx.body` or `\x.body`. -/
def parseAbstraction : Nat → PState → Except String Term × PState
  | 0, st => (Except.error "parser fuel exhausted", st)
  | fuel+1, st =>
    match st.rest with
    | c :: cs =>
      if c = 'λ' || c = '\\' then
        let st1 := skipWhitespace ⟨cs, st.pos + 1⟩
        let pr := parseIdentifier st1
        if pr.1 = "" then
          (Except.error ("expected parameter name at position " ++ natDec pr.2.pos), pr.2)
        else
          let st2 := skipWhitespace pr.2
          match st2.rest with
          | '.' :: cs2 =>
            (match parseExpr fuel ⟨cs2, st2.pos + 1⟩ with
             | (Except.ok body, st3) => (Except.ok (Term.Abstraction pr.1 body), st3)
             | (Except.error e, st3) => (Except.error e, st3))
          | _ =>
            (Except.error ("expected '.' after parameter at position " ++ natDec st2.pos), st2)
      else (Except.error ("expected λ or \\ at position " ++ natDec st.pos), st)
    | [] => (Except.error ("expected λ or \\ at position " ++ natDec st.pos), st)

/-- parseApplication parses left-associative application: a first term
followed by the term-collecting loop. -/
def parseApplication : Nat → PState → Except String Term × PState
  | 0, st => (Except.error "parser fuel exhausted", st)
  | fuel+1, st =>
    match parseTerm fuel st with
    | (Except.ok left, st1) => parseAppLoop fuel left st1
    | (Except.error e, st1) => (Except.error e, st1)

/-- The `for` loop of Go's `parseApplication`: keep parsing terms and folding
them into left-nested applications; stop at end of input, at ')', or when
`parseTerm` errors (the error is swallowed but its consumed input is kept). -/
def parseAppLoop : Nat → Term → PState → Except String Term × PState
  | 0, _, st => (Except.error "parser fuel exhausted", st)
  | fuel+1, left, st =>
    let st1 := skipWhitespace st
    match st1.rest with
    | [] => (Except.ok left, st1)
    | ')' :: _ => (Except.ok left, st1)
    | _ :: _ =>
      match parseTerm fuel st1 with
      | (Except.ok right, st2) => parseAppLoop fuel (Term.Application left right) st2
      | (Except.error _, st2) => (Except.ok left, st2)

/-- parseTerm parses a single term: a parenthesized expression, an
abstraction, or an identifier (resolved through `lookupConstant` when it
starts with an underscore). -/
def parseTerm : Nat → PState → Except String Term × PState
  | 0, st => (Except.error "parser fuel exhausted", st)
  | fuel+1, st =>
    let st1 := skipWhitespace st
    match st1.rest with
    | [] => (Except.error "unexpected end of input", st1)
    | '(' :: cs =>
      (match parseExpr fuel ⟨cs, st1.pos + 1⟩ with
       | (Except.ok expr, st2) =>
         let st3 := skipWhitespace st2
         (match st3.rest with
          | ')' :: cs3 => (Except.ok expr, ⟨cs3, st3.pos + 1⟩)
          | _ => (Except.error ("expected ')' at position " ++ natDec st3.pos), st3))
       | (Except.error e, st2) => (Except.error e, st2))
    | c :: _ =>
      if c = 'λ' || c = '\\' then parseAbstraction fuel st1
      else
        let pr := parseIdentifier st1
        if pr.1 = "" then
          (Except.error ("expected variable or '(' at position " ++ natDec pr.2.pos), pr.2)
        else (Except.ok (resolveIdent pr.1), pr.2)

end

/-- Parse parses a lambda expression string: trim, parse one expression, and
require that all input was consumed. -/
def Parse (input : String) : Except String Term :=
  let cs := trimChars input.data
  match parseExpr (parseFuel cs) ⟨cs, 0⟩ with
  | (Except.error e, _) => Except.error e
  | (Except.ok result, st) =>
    let st1 := skipWhitespace st
    if st1.rest.isEmpty then Except.ok result
    else
      Except.error ("unexpected characters after expression at position "
        ++ natDec st1.pos ++ ": " ++ goQuote st1.rest)

/-- LazyScript.parse: parse the stored script (Go memoizes the result, which
is observationally irrelevant, and aborts the process on a parse error; that
unreachable branch is modelled as an inert variable). -/
def lazyParse (s : String) : Term :=
  match Parse s with
  | Except.ok t => t
  | Except.error _ => Term.Var s

/-- String form of a term (the Go `String()` methods): a variable prints as
its name, an abstraction as `λparam.body`, an application as `func arg` with
the function side parenthesized when it is (syntactically) an `Abstraction`
and the argument side parenthesized when it is an `Application` or an
`Abstraction`; a `LazyScript` delegates to its parsed term. -/
def TermString : Nat → Term → String
  | _, Term.Var n => n
  | fuel, Term.Abstraction p b => "λ" ++ p ++ "." ++ TermString fuel b
  | fuel, Term.Application f a =>
    let fs := TermString fuel f
    let funcStr :=
      match f with
      | Term.Abstraction _ _ => "(" ++ fs ++ ")"
      | _ => fs
    let as' := TermString fuel a
    let argStr :=
      match a with
      | Term.Application _ _ => "(" ++ as' ++ ")"
      | Term.Abstraction _ _ => "(" ++ as' ++ ")"
      | _ => as'
    funcStr ++ " " ++ argStr
  | 0, Term.LazyScript s => s          -- fuel exhausted (unreachable for adequate fuel)
  | fuel+1, Term.LazyScript s => TermString fuel (lazyParse s)
termination_by fuel t => (fuel, termSize t)
decreasing_by
  all_goals simp_wf
  all_goals solve
    | (apply Prod.Lex.left; omega)
    | (apply Prod.Lex.right; simp [termSize]; omega)
    | (apply Prod.Lex.right; simp [termSize])

/-- FreeVars returns the set of free variables of a term: `{name}` for a
variable, the body's set minus the parameter for an abstraction, the union of
both sides for an application; a `LazyScript` delegates to its parsed term. -/
def FreeVars : Nat → Term → Finset String
  | _, Term.Var n => {n}
  | fuel, Term.Abstraction p b => (FreeVars fuel b).erase p
  | fuel, Term.Application f a => FreeVars fuel f ∪ FreeVars fuel a
  | 0, Term.LazyScript _ => ∅          -- fuel exhausted (unreachable for adequate fuel)
  | fuel+1, Term.LazyScript s => FreeVars fuel (lazyParse s)
termination_by fuel t => (fuel, termSize t)
decreasing_by
  all_goals simp_wf
  all_goals solve
    | (apply Prod.Lex.left; omega)
    | (apply Prod.Lex.right; simp [termSize]; omega)
    | (apply Prod.Lex.right; simp [termSize])

/-- AlphaConvert renames a bound variable: every `Var oldName` becomes
`Var newName` and every binder of `oldName` is re-bound to `newName`,
unconditionally and recursively; a `LazyScript` delegates to its parsed
term. -/
def AlphaConvert : Nat → Term → String → String → Term
  | _, Term.Var n, oldName, newName =>
    if n = oldName then Term.Var newName else Term.Var n
  | fuel, Term.Abstraction p b, oldName, newName =>
    if p = oldName then Term.Abstraction newName (AlphaConvert fuel b oldName newName)
    else Term.Abstraction p (AlphaConvert fuel b oldName newName)
  | fuel, Term.Application f a, oldName, newName =>
    Term.Application (AlphaConvert fuel f oldName newName) (AlphaConvert fuel a oldName newName)
  | 0, Term.LazyScript s, _, _ => Term.Var s   -- fuel exhausted (unreachable for adequate fuel)
  | fuel+1, Term.LazyScript s, oldName, newName => AlphaConvert fuel (lazyParse s) oldName newName
termination_by fuel t _ _ => (fuel, termSize t)
decreasing_by
  all_goals simp_wf
  all_goals solve
    | (apply Prod.Lex.left; omega)
    | (apply Prod.Lex.right; simp [termSize]; omega)
    | (apply Prod.Lex.right; simp [termSize])

/-- The unbounded probe loop of Go's `freshVar`: try `base ++ natDec i`,
`base ++ natDec (i+1)`, … until one is outside `avoid`.  The loop is run with
fuel `avoid.card + 1`, which always suffices (pigeonhole; proved below), so
the fuel-exhaustion value is unreachable. -/
def freshVarLoop (base : String) (avoid : Finset String) : Nat → Nat → String
  | 0, i => base ++ natDec i            -- fuel exhausted (unreachable)
  | fuel+1, i =>
    let candidate := base ++ natDec i
    if candidate ∈ avoid then freshVarLoop base avoid fuel (i+1) else candidate

/-- freshVar generates a fresh variable name: `base` itself when it is not in
`avoid`, else the first of `base0`, `base1`, … outside `avoid`. -/
def freshVar (base : String) (avoid : Finset String) : String :=
  if base ∉ avoid then base
  else freshVarLoop base avoid (avoid.card + 1) 0

/-- Substitute replaces a free variable by a term, avoiding capture: a
matching variable becomes the replacement; an abstraction binding the
variable is returned unchanged; an abstraction whose parameter is free in the
replacement is first alpha-renamed to a fresh name; an application
substitutes both sides; a `LazyScript` delegates to its parsed term.
The alpha-renaming branch consumes one unit of fuel (the renamed body is not
a structural subterm), so it is split over the two fuel patterns; on the
exhausted pattern it is unreachable for adequate fuel. -/
def Substitute : Nat → Term → String → Term → Term
  | _, Term.Var n, varName, replacement =>
    if n = varName then replacement else Term.Var n
  | 0, Term.Abstraction p b, varName, replacement =>
    if p = varName then Term.Abstraction p b
    else if p ∈ FreeVars 0 replacement then
      Term.Abstraction p b               -- fuel exhausted (unreachable for adequate fuel)
    else Term.Abstraction p (Substitute 0 b varName replacement)
  | fuel+1, Term.Abstraction p b, varName, replacement =>
    if p = varName then Term.Abstraction p b
    else if p ∈ FreeVars (fuel+1) replacement then
      let newParam := freshVar p (FreeVars (fuel+1) replacement)
      Term.Abstraction newParam
        (Substitute fuel (AlphaConvert (fuel+1) b p newParam) varName replacement)
    else Term.Abstraction p (Substitute (fuel+1) b varName replacement)
  | fuel, Term.Application f a, varName, replacement =>
    Term.Application (Substitute fuel f varName replacement) (Substitute fuel a varName replacement)
  | 0, Term.LazyScript s, _, _ => Term.Var s   -- fuel exhausted (unreachable for adequate fuel)
  | fuel+1, Term.LazyScript s, varName, replacement =>
    Substitute fuel (lazyParse s) varName replacement
termination_by fuel t _ _ => (fuel, termSize t)
decreasing_by
  all_goals simp_wf
  all_goals solve
    | (apply Prod.Lex.left; omega)
    | (apply Prod.Lex.right; simp [termSize]; omega)
    | (apply Prod.Lex.right; simp [termSize])

/-- BetaReduce performs one step of beta reduction in normal order: a variable
never reduces; an abstraction reduces its body; an application first unwraps
a `LazyScript` in function position, fires `(λx.t) s → t[x := s]` when the
function is an abstraction, else tries the function side then the argument
side; a `LazyScript` at the root delegates to its parsed term. -/
def BetaReduce : Nat → Term → Term × Bool
  | _, Term.Var n => (Term.Var n, false)
  | fuel, Term.Abstraction p b =>
    let r := BetaReduce fuel b
    if r.2 then (Term.Abstraction p r.1, true) else (Term.Abstraction p b, false)
  | fuel, Term.Application f a =>
    let funcTerm := match f with
      | Term.LazyScript s => lazyParse s
      | _ => f
    (match funcTerm with
     | Term.Abstraction p b => (Substitute fuel b p a, true)
     | _ =>
       let rf := BetaReduce fuel f
       if rf.2 then (Term.Application rf.1 a, true)
       else
         let ra := BetaReduce fuel a
         if ra.2 then (Term.Application f ra.1, true)
         else (Term.Application f a, false))
  | 0, Term.LazyScript s => (Term.Var s, false)   -- fuel exhausted (unreachable for adequate fuel)
  | fuel+1, Term.LazyScript s => BetaReduce fuel (lazyParse s)
termination_by fuel t => (fuel, termSize t)
decreasing_by
  all_goals simp_wf
  all_goals solve
    | (apply Prod.Lex.left; omega)
    | (apply Prod.Lex.right; simp [termSize]; omega)
    | (apply Prod.Lex.right; simp [termSize])

/-- EtaConvert performs one step of eta conversion: `λx.(f x) → f` when `x`
is not free in `f`, checked on the syntactic shape of the body; otherwise
body first for an abstraction, then function side before argument side for an
application; a `LazyScript` delegates to its parsed term. -/
def EtaConvert : Nat → Term → Term × Bool
  | _, Term.Var n => (Term.Var n, false)
  | fuel, Term.Abstraction p b =>
    (match b with
     | Term.Application f (Term.Var v) =>
       if v = p ∧ p ∉ FreeVars fuel f then (f, true)
       else
         let r := EtaConvert fuel (Term.Application f (Term.Var v))
         if r.2 then (Term.Abstraction p r.1, true)
         else (Term.Abstraction p (Term.Application f (Term.Var v)), false)
     | b' =>
       let r := EtaConvert fuel b'
       if r.2 then (Term.Abstraction p r.1, true) else (Term.Abstraction p b', false))
  | fuel, Term.Application f a =>
    let rf := EtaConvert fuel f
    if rf.2 then (Term.Application rf.1 a, true)
    else
      let ra := EtaConvert fuel a
      if ra.2 then (Term.Application f ra.1, true)
      else (Term.Application f a, false)
  | 0, Term.LazyScript s => (Term.Var s, false)   -- fuel exhausted (unreachable for adequate fuel)
  | fuel+1, Term.LazyScript s => EtaConvert fuel (lazyParse s)
termination_by fuel t => (fuel, termSize t)
decreasing_by
  all_goals simp_wf
  all_goals solve
    | (apply Prod.Lex.left; omega)
    | (apply Prod.Lex.right; simp [termSize]; omega)
    | (apply Prod.Lex.right; simp [termSize])

/-- The `for i := 0; i < limit; i++` loop of Go's `Reduce`: step with
`BetaReduce` at most `n` times, stopping at the first step that does not
reduce, and count the steps performed. -/
def ReduceLoop (fuel : Nat) : Nat → Term → Term × Nat
  | 0, t => (t, 0)
  | n+1, t =>
    let r := BetaReduce fuel t
    if r.2 then
      let rec' := ReduceLoop fuel n r.1
      (rec'.1, rec'.2 + 1)
    else (t, 0)

/-- Reduce performs multiple beta reductions up to a maximum number of steps,
returning the reduced term and the number of reductions performed; a limit
that is zero or negative is replaced by the default 1000. -/
def Reduce (fuel : Nat) (obj : Term) (limit : Int) : Term × Nat :=
  let lim : Int := if limit ≤ 0 then 1000 else limit
  ReduceLoop fuel lim.toNat obj

/-- countApplications counts nested applications of the variable `funcName`
(Go's helper for `ToInt`); the Go type switch has no `LazyScript` case, so a
`LazyScript` falls through to the final `return 0`. -/
def countApplications : Term → String → Nat
  | Term.Var n, _ => if n = "ZERO_MARKER" then 0 else 0   -- both Go branches return 0
  | Term.Application f a, funcName =>
    (match f with
     | Term.Var v =>
       if v = funcName then 1 + countApplications a funcName
       else countApplications a funcName
     | _ => countApplications a funcName)
  | Term.Abstraction _ b, funcName => countApplications b funcName
  | Term.LazyScript _, _ => 0

/-- ToInt converts a Church numeral to an integer: apply it to the marker
variables `SUCC_MARKER` and `ZERO_MARKER`, reduce with limit 1000, and count
the nested `SUCC_MARKER` applications. -/
def ToInt (fuel : Nat) (term : Term) : Nat :=
  let result :=
    Term.Application
      (Term.Application term (Term.Var "SUCC_MARKER"))
      (Term.Var "ZERO_MARKER")
  countApplications (Reduce fuel result 1000).1 "SUCC_MARKER"

/-- `n`-fold iteration of the term component of `BetaReduce`; used to state
that `Reduce` reports the exact number of steps it performed. -/
def betaIterate (fuel : Nat) : Nat → Term → Term
  | 0, t => t
  | n+1, t => betaIterate fuel n (BetaReduce fuel t).1

/-- A term of the lazy-free fragment (no embedded `LazyScript`). -/
def NoLazy : Term → Bool
  | Term.Var _ => true
  | Term.Abstraction _ b => NoLazy b
  | Term.Application f a => NoLazy f && NoLazy a
  | Term.LazyScript _ => false

/-- An identifier in the round-trippable fragment: a letter followed by
letters, digits and underscores (the spec's `Identifier` invariant minus the
leading underscore, which the parser reserves for constant lookup). -/
def goodId (s : String) : Bool :=
  match s.data with
  | [] => false
  | c :: cs => c.isAlpha && cs.all isIdentChar

/-- A hand-built term whose identifiers are all in the round-trippable
fragment (in particular lazy-free). -/
def GoodTerm : Term → Bool
  | Term.Var n => goodId n
  | Term.Abstraction p b => goodId p && GoodTerm b
  | Term.Application f a => GoodTerm f && GoodTerm a
  | Term.LazyScript _ => false

/-- The probe order of the spec's `freshVariable`: `base`, `base0`, `base1`,
… -/
def probe (base : String) : Nat → String
  | 0 => base
  | k+1 => base ++ natDec k

/-- The string printed for a term in function position of an application
(parenthesized exactly when the term is an abstraction). -/
def funcString (fuel : Nat) (t : Term) : String :=
  match t with
  | Term.Abstraction _ _ => "(" ++ TermString fuel t ++ ")"
  | _ => TermString fuel t

/-- The string printed for a term in argument position of an application
(parenthesized exactly when the term is an application or an abstraction). -/
def argString (fuel : Nat) (t : Term) : String :=
  match t with
  | Term.Application _ _ => "(" ++ TermString fuel t ++ ")"
  | Term.Abstraction _ _ => "(" ++ TermString fuel t ++ ")"
  | _ => TermString fuel t

/-- Head of the left-nested application spine. -/
def spineHead : Term → Term
  | Term.Application f _ => spineHead f
  | t => t

/-- Arguments of the left-nested application spine, leftmost first. -/
def spineArgs : Term → List Term
  | Term.Application f a => spineArgs f ++ [a]
  | _ => []

/-- Characters printed for a spine's argument list: one space before each
argument-position string. -/
def argsChars (fuel : Nat) : List Term → List Char
  | [] => []
  | a :: rest => ' ' :: (argString fuel a).data ++ argsChars fuel rest

/-- Input suffixes at which the application loop stops without consuming:
end of input or a closing parenthesis. -/
def StopRest (rest : List Char) : Prop :=
  rest = [] ∨ ∃ rs, rest = ')' :: rs

/-- `SUCC_MARKER` applied `n` times to the variable `x` (the shape of a Church
numeral body after substituting the successor marker). -/
def markerChain : Nat → Term
  | 0 => Term.Var "x"
  | n+1 => Term.Application (Term.Var "SUCC_MARKER") (markerChain n)

/-- `SUCC_MARKER` applied `n` times to `ZERO_MARKER` (the normal form decoded
by `countApplications`). -/
def markerChainZ : Nat → Term
  | 0 => Term.Var "ZERO_MARKER"
  | n+1 => Term.Application (Term.Var "SUCC_MARKER") (markerChainZ n)

/-! Character-class facts: identifier characters are disjoint from the
parser's structural characters and from whitespace. -/

theorem charIdent_facts (c : Char) (h : isIdentChar c = true) :
    c.isWhitespace = false ∧ c ≠ 'λ' ∧ c ≠ '\\' ∧ c ≠ '(' ∧ c ≠ ')' ∧ c ≠ '.' := by
  simp only [isIdentChar, Char.isAlpha, Char.isUpper, Char.isLower, Char.isDigit,
    Char.isWhitespace, Bool.or_eq_true, decide_eq_true_eq, Bool.and_eq_true,
    Bool.or_eq_false_iff, decide_eq_false_iff_not, Char.le_def, Char.ext_iff,
    UInt32.le_def, UInt32.lt_def, BitVec.le_def, BitVec.lt_def, UInt32.ext_iff,
    BitVec.toNat_eq, ne_eq,
    show ∀ u : UInt32, u.toBitVec.toNat = u.toNat from fun _ => rfl,
    show (' ').val.toNat = 32 from rfl, show ('\t').val.toNat = 9 from rfl,
    show ('\x0d').val.toNat = 13 from rfl, show ('\n').val.toNat = 10 from rfl,
    show ('λ').val.toNat = 955 from rfl, show ('\\').val.toNat = 92 from rfl,
    show ('(').val.toNat = 40 from rfl, show (')').val.toNat = 41 from rfl,
    show ('.').val.toNat = 46 from rfl, show ('_').val.toNat = 95 from rfl,
    show UInt32.toNat 65 = 65 from rfl, show UInt32.toNat 90 = 90 from rfl,
    show UInt32.toNat 97 = 97 from rfl, show UInt32.toNat 122 = 122 from rfl,
    show UInt32.toNat 48 = 48 from rfl, show UInt32.toNat 57 = 57 from rfl] at *
  omega

theorem charAlpha_facts (c : Char) (h : c.isAlpha = true) :
    isIdentChar c = true ∧ isIdentStart c = true ∧ c ≠ '_' := by
  refine ⟨?_, ?_, ?_⟩
  · simp [isIdentChar, h]
  · simp [isIdentStart, h]
  · simp only [Char.isAlpha, Char.isUpper, Char.isLower, Bool.or_eq_true,
      decide_eq_true_eq, Bool.and_eq_true, Char.le_def, Char.ext_iff,
      UInt32.le_def, BitVec.le_def, UInt32.ext_iff, BitVec.toNat_eq, ne_eq,
      show ∀ u : UInt32, u.toBitVec.toNat = u.toNat from fun _ => rfl,
      show ('_').val.toNat = 95 from rfl,
      show UInt32.toNat 65 = 65 from rfl, show UInt32.toNat 90 = 90 from rfl,
      show UInt32.toNat 97 = 97 from rfl, show UInt32.toNat 122 = 122 from rfl] at *
    omega

theorem charStart_ident (c : Char) (h : isIdentStart c = true) : isIdentChar c = true := by
  simp only [isIdentStart, Bool.or_eq_true] at h
  simp only [isIdentChar, Bool.or_eq_true]
  rcases h with h | h
  · exact Or.inl (Or.inl h)
  · exact Or.inr h

/-! Facts about `natDec`, Go's decimal rendering: correctness with respect to
the digit valuation and injectivity. -/

theorem digitsVal_append (xs : List Char) : ∀ acc ys,
    digitsVal acc (xs ++ ys) = digitsVal (digitsVal acc xs) ys := by
  induction xs with
  | nil => intro acc ys; rfl
  | cons c cs ih =>
    intro acc ys
    show digitsVal (acc * 10 + (c.toNat - '0'.toNat)) (cs ++ ys)
      = digitsVal (digitsVal (acc * 10 + (c.toNat - '0'.toNat)) cs) ys
    exact ih _ _

theorem digitChar_val (d : Nat) (h : d < 10) :
    (Nat.digitChar d).toNat - '0'.toNat = d := by
  interval_cases d <;> rfl

theorem digitsVal_natDecAux : ∀ fuel n, n < 10 ^ fuel →
    digitsVal 0 (natDecAux fuel n) = n := by
  intro fuel
  induction fuel with
  | zero => intro n h; interval_cases n; rfl
  | succ f ih =>
    intro n h
    by_cases h10 : n < 10
    · rw [natDecAux, if_pos h10]
      show 0 * 10 + ((Nat.digitChar n).toNat - '0'.toNat) = n
      rw [Nat.zero_mul, Nat.zero_add]
      exact digitChar_val n h10
    · have hdiv : n / 10 < 10 ^ f := by
        rw [Nat.div_lt_iff_lt_mul (by norm_num)]
        calc n < 10 ^ (f + 1) := h
        _ = 10 ^ f * 10 := by ring
      rw [natDecAux, if_neg h10, digitsVal_append, ih _ hdiv]
      show n / 10 * 10 + ((Nat.digitChar (n % 10)).toNat - '0'.toNat) = n
      have := digitChar_val (n % 10) (Nat.mod_lt _ (by norm_num))
      omega

theorem natDec_injective : Function.Injective natDec := by
  intro m n h
  have hd : (natDec m).data = (natDec n).data := congrArg String.data h
  simp only [natDec] at hd
  have hm : digitsVal 0 (natDecAux (m+1) m) = m :=
    digitsVal_natDecAux _ _ (lt_of_lt_of_le (Nat.lt_pow_self (by norm_num) m)
      (Nat.pow_le_pow_right (by norm_num) (Nat.le_succ m)))
  have hn : digitsVal 0 (natDecAux (n+1) n) = n :=
    digitsVal_natDecAux _ _ (lt_of_lt_of_le (Nat.lt_pow_self (by norm_num) n)
      (Nat.pow_le_pow_right (by norm_num) (Nat.le_succ n)))
  rw [← hm, ← hn, hd]

theorem append_natDec_injective (base : String) :
    Function.Injective (fun i => base ++ natDec i) := by
  intro i j h
  apply natDec_injective
  have hd : (base ++ natDec i).data = (base ++ natDec j).data := congrArg String.data h
  have happend : ∀ s t : String, (s ++ t).data = s.data ++ t.data := by
    intro s t; cases s; cases t; rfl
  rw [happend, happend] at hd
  exact congrArg String.mk (List.append_cancel_left hd)

theorem exists_fresh (base : String) (avoid : Finset String) :
    ∃ j, j ≤ avoid.card ∧ base ++ natDec j ∉ avoid := by
  by_contra hc
  push_neg at hc
  have hsub : (Finset.range (avoid.card + 1)).image (fun i => base ++ natDec i) ⊆ avoid := by
    intro x hx
    simp only [Finset.mem_image, Finset.mem_range] at hx
    obtain ⟨j, hj, rfl⟩ := hx
    exact hc j (Nat.lt_succ_iff.mp hj)
  have hcard := Finset.card_le_card hsub
  rw [Finset.card_image_of_injective _ (append_natDec_injective base),
    Finset.card_range] at hcard
  omega

theorem freshVarLoop_spec (base : String) (avoid : Finset String) : ∀ fuel i,
    (∃ j, j < fuel ∧ base ++ natDec (i + j) ∉ avoid) →
    ∃ k, freshVarLoop base avoid fuel i = base ++ natDec (i + k) ∧
      base ++ natDec (i + k) ∉ avoid ∧ ∀ j < k, base ++ natDec (i + j) ∈ avoid := by
  intro fuel
  induction fuel with
  | zero => intro i h; obtain ⟨j, hj, _⟩ := h; omega
  | succ f ih =>
    intro i h
    by_cases hin : base ++ natDec i ∈ avoid
    · obtain ⟨j, hj, hout⟩ := h
      have hj0 : j ≠ 0 := by rintro rfl; simp only [Nat.add_zero] at hout; exact hout hin
      have hout' : base ++ natDec (i + 1 + (j - 1)) ∉ avoid := by
        have heq : i + 1 + (j - 1) = i + j := by omega
        rw [heq]; exact hout
      obtain ⟨k, hk1, hk2, hk3⟩ := ih (i + 1) (by
        refine ⟨j - 1, ?_, hout'⟩
        omega)
      refine ⟨k + 1, ?_, ?_, ?_⟩
      · simp only [freshVarLoop, if_pos hin]
        have harith : i + (k + 1) = i + 1 + k := by omega
        rw [harith, hk1]
      · have : i + (k + 1) = i + 1 + k := by omega
        rw [this]; exact hk2
      · intro j' hj'
        rcases Nat.eq_zero_or_pos j' with rfl | hpos
        · simpa using hin
        · have : i + j' = i + 1 + (j' - 1) := by omega
          rw [this]; exact hk3 _ (by omega)
    · exact ⟨0, by simp [freshVarLoop, hin], by simpa using hin, by omega⟩

theorem freshVar_spec (base : String) (avoid : Finset String) :
    ∃ k, freshVar base avoid = probe base k ∧ probe base k ∉ avoid ∧
      ∀ j < k, probe base j ∈ avoid := by
  unfold freshVar
  by_cases hin : base ∈ avoid
  · simp only [hin, not_true_eq_false, if_false]
    obtain ⟨j, hj, hout⟩ := exists_fresh base avoid
    obtain ⟨k, hk1, hk2, hk3⟩ := freshVarLoop_spec base avoid (avoid.card + 1) 0
      ⟨j, by omega, by simpa using hout⟩
    refine ⟨k + 1, ?_, ?_, ?_⟩
    · simpa [probe] using hk1
    · simpa [probe] using hk2
    · intro j' hj'
      rcases Nat.eq_zero_or_pos j' with rfl | hpos
      · simpa [probe] using hin
      · obtain ⟨j'', rfl⟩ : ∃ j'', j' = j'' + 1 := ⟨j' - 1, by omega⟩
        simpa [probe] using hk3 j'' (by omega)
  · exact ⟨0, by simp [hin, probe], by simpa [probe] using hin, by omega⟩

/-! Facts about the `Reduce` loop. -/

theorem reduceLoop_le (fuel : Nat) : ∀ n t, (ReduceLoop fuel n t).2 ≤ n := by
  intro n
  induction n with
  | zero => intro t; simp [ReduceLoop]
  | succ m ih =>
    intro t
    simp only [ReduceLoop]
    by_cases h : (BetaReduce fuel t).2
    · simp only [h, if_true]
      exact Nat.succ_le_succ (ih _)
    · simp [h]

theorem reduceLoop_stop (fuel : Nat) : ∀ n t, (ReduceLoop fuel n t).2 < n →
    (BetaReduce fuel (ReduceLoop fuel n t).1).2 = false := by
  intro n
  induction n with
  | zero => intro t h; omega
  | succ m ih =>
    intro t h
    by_cases hb : (BetaReduce fuel t).2
    · have hrw : ReduceLoop fuel (m+1) t =
        ((ReduceLoop fuel m (BetaReduce fuel t).1).1,
         (ReduceLoop fuel m (BetaReduce fuel t).1).2 + 1) := by
        simp [ReduceLoop, hb]
      rw [hrw] at h ⊢
      exact ih _ (by omega)
    · have hrw : ReduceLoop fuel (m+1) t = (t, 0) := by simp [ReduceLoop, hb]
      rw [hrw]
      simpa using hb

theorem reduceLoop_iterate (fuel : Nat) : ∀ n t,
    (ReduceLoop fuel n t).1 = betaIterate fuel (ReduceLoop fuel n t).2 t := by
  intro n
  induction n with
  | zero => intro t; simp [ReduceLoop, betaIterate]
  | succ m ih =>
    intro t
    by_cases hb : (BetaReduce fuel t).2
    · have hrw : ReduceLoop fuel (m+1) t =
        ((ReduceLoop fuel m (BetaReduce fuel t).1).1,
         (ReduceLoop fuel m (BetaReduce fuel t).1).2 + 1) := by
        simp [ReduceLoop, hb]
      rw [hrw]
      simp only [betaIterate]
      exact ih _
    · have hrw : ReduceLoop fuel (m+1) t = (t, 0) := by simp [ReduceLoop, hb]
      rw [hrw]
      simp [betaIterate]

theorem reduceLoop_steps (fuel : Nat) : ∀ n t i, i < (ReduceLoop fuel n t).2 →
    (BetaReduce fuel (betaIterate fuel i t)).2 = true := by
  intro n
  induction n with
  | zero => intro t i h; simp [ReduceLoop] at h
  | succ m ih =>
    intro t i h
    by_cases hb : (BetaReduce fuel t).2
    · cases i with
      | zero => simpa [betaIterate] using hb
      | succ i' =>
        have hrw : ReduceLoop fuel (m+1) t =
          ((ReduceLoop fuel m (BetaReduce fuel t).1).1,
           (ReduceLoop fuel m (BetaReduce fuel t).1).2 + 1) := by
          simp [ReduceLoop, hb]
        rw [hrw] at h
        simp only [betaIterate]
        exact ih _ _ (by omega)
    · have hrw : ReduceLoop fuel (m+1) t = (t, 0) := by simp [ReduceLoop, hb]
      rw [hrw] at h
      omega

/-- C1: `substitute` follows the spec's rules: a `Var` returns the
replacement exactly when its name matches, else itself; an `Abstraction`
binding the substituted name is unchanged; an `Abstraction` whose parameter
is free in the replacement is first alpha-renamed to the first name in the
probe order `base, base0, base1, …` that is not free in the replacement,
then substituted; an `Application` substitutes both sides.  In particular
`substitute(λy.x, x, y)` yields `λy0.y` and never `λy.y`. -/
theorem substitute_spec :
    (∀ fuel n x r, Substitute fuel (Term.Var n) x r = if n = x then r else Term.Var n)
    ∧ (∀ fuel p b r, Substitute fuel (Term.Abstraction p b) p r = Term.Abstraction p b)
    ∧ (∀ fuel p b x r, p ≠ x → p ∈ FreeVars (fuel+1) r →
        Substitute (fuel+1) (Term.Abstraction p b) x r
          = Term.Abstraction (freshVar p (FreeVars (fuel+1) r))
              (Substitute fuel
                (AlphaConvert (fuel+1) b p (freshVar p (FreeVars (fuel+1) r))) x r))
    ∧ (∀ fuel p b x r, p ≠ x → p ∉ FreeVars fuel r →
        Substitute fuel (Term.Abstraction p b) x r
          = Term.Abstraction p (Substitute fuel b x r))
    ∧ (∀ fuel f a x r, Substitute fuel (Term.Application f a) x r
        = Term.Application (Substitute fuel f x r) (Substitute fuel a x r))
    ∧ (∀ fuel p r, ∃ k, freshVar p (FreeVars fuel r) = probe p k
        ∧ probe p k ∉ FreeVars fuel r ∧ ∀ j < k, probe p j ∈ FreeVars fuel r)
    ∧ (∀ fuel, Substitute (fuel+1) (Term.Abstraction "y" (Term.Var "x")) "x" (Term.Var "y")
        = Term.Abstraction "y0" (Term.Var "y"))
    ∧ (∀ fuel, Substitute fuel (Term.Abstraction "y" (Term.Var "x")) "x" (Term.Var "y")
        ≠ Term.Abstraction "y" (Term.Var "y")) := by
  have hvar : ∀ fuel n x r, Substitute fuel (Term.Var n) x r
      = if n = x then r else Term.Var n := by
    intro fuel n x r
    cases fuel <;> simp [Substitute]
  have hshadow : ∀ fuel p b r, Substitute fuel (Term.Abstraction p b) p r
      = Term.Abstraction p b := by
    intro fuel p b r
    cases fuel <;> simp [Substitute]
  have hcapture : ∀ fuel p b x r, p ≠ x → p ∈ FreeVars (fuel+1) r →
      Substitute (fuel+1) (Term.Abstraction p b) x r
        = Term.Abstraction (freshVar p (FreeVars (fuel+1) r))
            (Substitute fuel
              (AlphaConvert (fuel+1) b p (freshVar p (FreeVars (fuel+1) r))) x r) := by
    intro fuel p b x r hne hmem
    simp [Substitute, hne, hmem]
  have hnocapture : ∀ fuel p b x r, p ≠ x → p ∉ FreeVars fuel r →
      Substitute fuel (Term.Abstraction p b) x r
        = Term.Abstraction p (Substitute fuel b x r) := by
    intro fuel p b x r hne hmem
    cases fuel <;> simp [Substitute, hne, hmem]
  have happ : ∀ fuel f a x r, Substitute fuel (Term.Application f a) x r
      = Term.Application (Substitute fuel f x r) (Substitute fuel a x r) := by
    intro fuel f a x r
    cases fuel <;> simp [Substitute]
  have hfresh : ∀ fuel p r, ∃ k, freshVar p (FreeVars fuel r) = probe p k
      ∧ probe p k ∉ FreeVars fuel r ∧ ∀ j < k, probe p j ∈ FreeVars fuel r :=
    fun fuel p r => freshVar_spec p (FreeVars fuel r)
  have hexample : ∀ fuel,
      Substitute (fuel+1) (Term.Abstraction "y" (Term.Var "x")) "x" (Term.Var "y")
        = Term.Abstraction "y0" (Term.Var "y") := by
    intro fuel
    have hfv : FreeVars (fuel+1) (Term.Var "y") = {"y"} := by simp [FreeVars]
    have hmem : ("y" : String) ∈ FreeVars (fuel+1) (Term.Var "y") := by rw [hfv]; decide
    rw [hcapture fuel "y" (Term.Var "x") "x" (Term.Var "y") (by decide) hmem]
    have hfr : freshVar "y" (FreeVars (fuel+1) (Term.Var "y")) = "y0" := by
      rw [hfv]
      show freshVar "y" {"y"} = "y0"
      rw [freshVar]
      have h1 : ¬ ("y" : String) ∉ ({"y"} : Finset String) := by decide
      rw [if_neg h1]
      show freshVarLoop "y" {"y"} (Finset.card {"y"} + 1) 0 = "y0"
      have hcard : Finset.card ({"y"} : Finset String) = 1 := by decide
      rw [hcard]
      show freshVarLoop "y" {"y"} 2 0 = "y0"
      rw [freshVarLoop]
      have h2 : ¬ ("y" ++ natDec 0 : String) ∈ ({"y"} : Finset String) := by decide
      simp only [if_neg h2]
      decide
    rw [hfr]
    have halpha : AlphaConvert (fuel+1) (Term.Var "x") "y" "y0" = Term.Var "x" := by
      simp [AlphaConvert]
    rw [halpha, hvar]
    decide
  refine ⟨hvar, hshadow, hcapture, hnocapture, happ, hfresh, hexample, ?_⟩
  intro fuel
  cases fuel with
  | zero =>
    intro hc
    have : Substitute 0 (Term.Abstraction "y" (Term.Var "x")) "x" (Term.Var "y")
        = Term.Abstraction "y" (Term.Var "x") := by
      have hmem : ("y" : String) ∈ FreeVars 0 (Term.Var "y") := by simp [FreeVars]
      simp [Substitute, hmem]
    rw [this] at hc
    exact absurd (congrArg (fun t => match t with
      | Term.Abstraction _ b => b
      | t => t) hc) (by decide)
  | succ f =>
    rw [hexample f]
    decide

/-- Witness for C1 at a concrete input: the capture branch fires for
`substitute(λy.x, x, y)` and the fresh-name clause holds there. -/
theorem substitute_spec_witness :
    ("y" : String) ≠ "x" ∧ ("y" : String) ∈ FreeVars 1 (Term.Var "y") ∧
    Substitute 1 (Term.Abstraction "y" (Term.Var "x")) "x" (Term.Var "y")
      = Term.Abstraction (freshVar "y" (FreeVars 1 (Term.Var "y")))
          (Substitute 0
            (AlphaConvert 1 (Term.Var "x") "y" (freshVar "y" (FreeVars 1 (Term.Var "y"))))
            "x" (Term.Var "y")) := by
  have hmem : ("y" : String) ∈ FreeVars 1 (Term.Var "y") := by simp [FreeVars]
  exact ⟨by decide, hmem,
    substitute_spec.2.2.1 0 "y" (Term.Var "x") "x" (Term.Var "y") (by decide) hmem⟩

/-- C2: `betaStep` is leftmost-outermost: the redex at the root fires first
(sole base case), otherwise the function side is tried before the argument
side, an abstraction reduces its body, and a variable never reduces; the two
pinned examples take exactly 1 and 2 steps. -/
theorem betaStep_normal_order :
    (∀ fuel n, BetaReduce fuel (Term.Var n) = (Term.Var n, false))
    ∧ (∀ fuel p b arg, BetaReduce fuel (Term.Application (Term.Abstraction p b) arg)
        = (Substitute fuel b p arg, true))
    ∧ (∀ fuel fn arg, (∀ p b, fn ≠ Term.Abstraction p b) → (∀ s, fn ≠ Term.LazyScript s) →
        BetaReduce fuel (Term.Application fn arg)
          = if (BetaReduce fuel fn).2 then (Term.Application (BetaReduce fuel fn).1 arg, true)
            else if (BetaReduce fuel arg).2 then
              (Term.Application fn (BetaReduce fuel arg).1, true)
            else (Term.Application fn arg, false))
    ∧ (∀ fuel p b, BetaReduce fuel (Term.Abstraction p b)
        = if (BetaReduce fuel b).2 then (Term.Abstraction p (BetaReduce fuel b).1, true)
          else (Term.Abstraction p b, false))
    ∧ (∀ fuel, Reduce fuel
        (Term.Application (Term.Abstraction "x" (Term.Var "x")) (Term.Var "y")) 1000
        = (Term.Var "y", 1))
    ∧ (∀ fuel, Reduce fuel
        (Term.Application
          (Term.Application (Term.Abstraction "x" (Term.Abstraction "y" (Term.Var "x")))
            (Term.Var "a"))
          (Term.Var "b")) 1000
        = (Term.Var "a", 2)) := by
  refine ⟨?_, ?_, ?_, ?_, ?_, ?_⟩
  · intro fuel n; cases fuel <;> simp [BetaReduce]
  · intro fuel p b arg; cases fuel <;> simp [BetaReduce]
  · intro fuel fn arg hA hL
    cases fn with
    | Var n => cases fuel <;> simp [BetaReduce]
    | Abstraction p b => exact absurd rfl (hA p b)
    | Application g h => cases fuel <;> simp [BetaReduce]
    | LazyScript s => exact absurd rfl (hL s)
  · intro fuel p b; cases fuel <;> simp [BetaReduce]
  · intro fuel
    cases fuel <;>
      simp [Reduce, ReduceLoop, BetaReduce, Substitute]
  · intro fuel
    cases fuel <;>
      simp [Reduce, ReduceLoop, BetaReduce, Substitute, FreeVars]

/-- Witness for C2 at a concrete input: the congruence clause applied to the
application `(x y) z` whose function side is not an abstraction. -/
theorem betaStep_normal_order_witness :
    BetaReduce 0 (Term.Application
        (Term.Application (Term.Var "x") (Term.Var "y")) (Term.Var "z"))
      = (Term.Application (Term.Application (Term.Var "x") (Term.Var "y")) (Term.Var "z"),
         false) := by
  have h := betaStep_normal_order.2.2.1 0
    (Term.Application (Term.Var "x") (Term.Var "y")) (Term.Var "z")
    (by intro p b hc; exact Term.noConfusion hc)
    (by intro s hc; exact Term.noConfusion hc)
  rw [h]
  simp [BetaReduce]

/-- C4 (counterexample): a `DeferredTerm` is not observationally
indistinguishable inside a containing term: printing `f ⟨lazy "a b"⟩` drops
the parentheses that printing `f (a b)` produces, because the
parenthesization test checks the syntactic shape and does not see through
the proxy. -/
theorem lazyscript_transparency_counterexample :
    Parse "a b" = Except.ok (Term.Application (Term.Var "a") (Term.Var "b"))
    ∧ lazyParse "a b" = Term.Application (Term.Var "a") (Term.Var "b")
    ∧ TermString 1 (Term.Application (Term.Var "f") (Term.LazyScript "a b")) = "f a b"
    ∧ TermString 1 (Term.Application (Term.Var "f")
        (Term.Application (Term.Var "a") (Term.Var "b"))) = "f (a b)"
    ∧ ("f a b" : String) ≠ "f (a b)" := by
  have hp : lazyParse "a b" = Term.Application (Term.Var "a") (Term.Var "b") := by decide
  refine ⟨by decide, hp, ?_, ?_, by decide⟩
  · simp [TermString, hp]
  · simp [TermString]

/-- C4 (amended): a `DeferredTerm` used directly is a transparent proxy —
every operation on it delegates to the term its script parses to (one fuel
unit pays for the unwrap), and beta reduction additionally sees through a
`DeferredTerm` in the function position of an application. -/
theorem lazyscript_delegation :
    (∀ fuel s, TermString (fuel+1) (Term.LazyScript s) = TermString fuel (lazyParse s))
    ∧ (∀ fuel s, FreeVars (fuel+1) (Term.LazyScript s) = FreeVars fuel (lazyParse s))
    ∧ (∀ fuel s x r, Substitute (fuel+1) (Term.LazyScript s) x r
        = Substitute fuel (lazyParse s) x r)
    ∧ (∀ fuel s o n, AlphaConvert (fuel+1) (Term.LazyScript s) o n
        = AlphaConvert fuel (lazyParse s) o n)
    ∧ (∀ fuel s, BetaReduce (fuel+1) (Term.LazyScript s) = BetaReduce fuel (lazyParse s))
    ∧ (∀ fuel s, EtaConvert (fuel+1) (Term.LazyScript s) = EtaConvert fuel (lazyParse s))
    ∧ (∀ fuel s arg p b, lazyParse s = Term.Abstraction p b →
        BetaReduce fuel (Term.Application (Term.LazyScript s) arg)
          = (Substitute fuel b p arg, true)) := by
  refine ⟨?_, ?_, ?_, ?_, ?_, ?_, ?_⟩
  · intro fuel s; simp [TermString]
  · intro fuel s; simp [FreeVars]
  · intro fuel s x r; simp [Substitute]
  · intro fuel s o n; simp [AlphaConvert]
  · intro fuel s; simp [BetaReduce]
  · intro fuel s; simp [EtaConvert]
  · intro fuel s arg p b h
    cases fuel <;> simp [BetaReduce, h]

/-- Witness for C4 at a concrete input: beta reduction fires through a
deferred `\x. x` in function position. -/
theorem lazyscript_delegation_witness :
    lazyParse "\\x. x" = Term.Abstraction "x" (Term.Var "x")
    ∧ BetaReduce 0 (Term.Application (Term.LazyScript "\\x. x") (Term.Var "y"))
      = (Term.Var "y", true) := by
  have h : lazyParse "\\x. x" = Term.Abstraction "x" (Term.Var "x") := by decide
  refine ⟨h, ?_⟩
  rw [lazyscript_delegation.2.2.2.2.2.2 0 "\\x. x" (Term.Var "y") "x" (Term.Var "x") h]
  cases 0 <;> simp [Substitute]

/-- C5: the exact errors `Parse` produces on the two unbalanced inputs: the
code reports `expected ')' at position 6` and `unexpected characters after
expression at position 5: ")"`, not the `missing 1 closing parenthesis` /
`unexpected ')'` messages the spec (and the repository's own parenthesis
test) require. -/
theorem parse_bracket_errors :
    Parse "(\\x. x" = Except.error "expected ')' at position 6"
    ∧ Parse "\\x. x)"
      = Except.error "unexpected characters after expression at position 5: \")\"" := by
  exact ⟨by decide, by decide⟩

/-- C6: normal form is stable: when `Reduce` stops before its limit, the
result is in normal form, and reducing it again with any limit performs 0
steps and returns it unchanged. -/
theorem reduce_normal_form_stable (fuel : Nat) (t : Term) (limit : Int) (t' : Term) (s : Nat)
    (hred : Reduce fuel t limit = (t', s)) (hlt : (s : Int) < limit) :
    ∀ limit' : Int, Reduce fuel t' limit' = (t', 0) := by
  intro limit'
  have hpos : ¬ limit ≤ 0 := by
    intro hc
    have : (s : Int) ≥ 0 := Int.ofNat_nonneg s
    omega
  unfold Reduce at hred
  simp only [if_neg hpos] at hred
  have h1 : (ReduceLoop fuel limit.toNat t).1 = t' := by rw [hred]
  have h2 : (ReduceLoop fuel limit.toNat t).2 = s := by rw [hred]
  have hslt : s < limit.toNat := by omega
  have hstop := reduceLoop_stop fuel limit.toNat t (by rw [h2]; omega)
  rw [h1] at hstop
  unfold Reduce
  have hge : 1 ≤ (if limit' ≤ 0 then (1000 : Int) else limit').toNat := by
    by_cases hc : limit' ≤ 0
    · rw [if_pos hc]; decide
    · rw [if_neg hc]; omega
  obtain ⟨m, hm⟩ : ∃ m, (if limit' ≤ 0 then (1000 : Int) else limit').toNat = m + 1 :=
    ⟨(if limit' ≤ 0 then (1000 : Int) else limit').toNat - 1, by omega⟩
  show ReduceLoop fuel (if limit' ≤ 0 then (1000 : Int) else limit').toNat t' = (t', 0)
  rw [hm]
  simp [ReduceLoop, hstop]

/-- Witness for C6 at a concrete input: `(λx.x) y` reduces to `y` in 1 < 10
steps, and reducing `y` again performs 0 steps. -/
theorem reduce_normal_form_stable_witness :
    Reduce 0 (Term.Var "y") 5 = (Term.Var "y", 0) := by
  apply reduce_normal_form_stable 0
    (Term.Application (Term.Abstraction "x" (Term.Var "x")) (Term.Var "y")) 10 (Term.Var "y") 1
  · simp [Reduce, ReduceLoop, BetaReduce, Substitute]
  · decide

/-- C7: the bounded driver: a non-positive limit is replaced by 1000;
`betaStep` is applied at most the effective limit number of times, each
counted step really reduced, the returned term is the exact iterate, the
driver stops early at the first non-reducing step, and it is a total
function (no error outcome exists). -/
theorem reduce_driver_spec (fuel : Nat) (t : Term) (limit : Int) :
    (limit ≤ 0 → Reduce fuel t limit = Reduce fuel t 1000)
    ∧ ((Reduce fuel t limit).2 : Int) ≤ (if limit ≤ 0 then (1000 : Int) else limit)
    ∧ (Reduce fuel t limit).1 = betaIterate fuel (Reduce fuel t limit).2 t
    ∧ (∀ i < (Reduce fuel t limit).2, (BetaReduce fuel (betaIterate fuel i t)).2 = true)
    ∧ (((Reduce fuel t limit).2 : Int) < (if limit ≤ 0 then (1000 : Int) else limit) →
        (BetaReduce fuel (Reduce fuel t limit).1).2 = false) := by
  refine ⟨?_, ?_, ?_, ?_, ?_⟩
  · intro h
    unfold Reduce
    simp [h]
  · have hle := reduceLoop_le fuel (if limit ≤ 0 then (1000 : Int) else limit).toNat t
    unfold Reduce
    by_cases hc : limit ≤ 0 <;> simp only [hc, if_true, if_false] at hle ⊢ <;> omega
  · unfold Reduce
    exact reduceLoop_iterate fuel _ t
  · intro i hi
    unfold Reduce at hi
    exact reduceLoop_steps fuel _ t i hi
  · intro hlt
    unfold Reduce at hlt ⊢
    apply reduceLoop_stop
    by_cases hc : limit ≤ 0 <;> simp only [hc, if_true, if_false] at hlt ⊢ <;> omega

/-- Witness for C7 at a concrete input: with limit `-1` the default 1000 is
substituted. -/
theorem reduce_driver_spec_witness :
    Reduce 0 (Term.Var "x") (-1) = Reduce 0 (Term.Var "x") 1000 :=
  (reduce_driver_spec 0 (Term.Var "x") (-1)).1 (by decide)

/-- C8: `etaStep` reduces `λx.(f x)` to `f` exactly when `x` is not free in
`f` (so `λx.(x x)` does not eta-reduce), and otherwise recurses body-first
into an abstraction and function-then-argument into an application; a
variable never reduces. -/
theorem etaStep_spec :
    (∀ fuel p f, p ∉ FreeVars fuel f →
        EtaConvert fuel (Term.Abstraction p (Term.Application f (Term.Var p))) = (f, true))
    ∧ (∀ fuel, EtaConvert fuel
        (Term.Abstraction "x" (Term.Application (Term.Var "x") (Term.Var "x")))
        = (Term.Abstraction "x" (Term.Application (Term.Var "x") (Term.Var "x")), false))
    ∧ (∀ fuel n, EtaConvert fuel (Term.Var n) = (Term.Var n, false))
    ∧ (∀ fuel f a, EtaConvert fuel (Term.Application f a)
        = if (EtaConvert fuel f).2 then (Term.Application (EtaConvert fuel f).1 a, true)
          else if (EtaConvert fuel a).2 then (Term.Application f (EtaConvert fuel a).1, true)
          else (Term.Application f a, false))
    ∧ (∀ fuel p b, (∀ f v, b = Term.Application f (Term.Var v) → v = p → p ∈ FreeVars fuel f) →
        EtaConvert fuel (Term.Abstraction p b)
          = if (EtaConvert fuel b).2 then (Term.Abstraction p (EtaConvert fuel b).1, true)
            else (Term.Abstraction p b, false)) := by
  refine ⟨?_, ?_, ?_, ?_, ?_⟩
  · intro fuel p f hmem
    cases fuel <;> simp [EtaConvert, hmem]
  · intro fuel
    have hmem : ("x" : String) ∈ FreeVars fuel (Term.Var "x") := by
      cases fuel <;> simp [FreeVars]
    cases fuel <;> simp [EtaConvert, FreeVars]
  · intro fuel n; cases fuel <;> simp [EtaConvert]
  · intro fuel f a; cases fuel <;> simp [EtaConvert]
  · intro fuel p b hroot
    cases b with
    | Var n => cases fuel <;> simp [EtaConvert]
    | Abstraction q c => cases fuel <;> simp [EtaConvert]
    | LazyScript s => cases fuel <;> simp [EtaConvert]
    | Application f a =>
      cases a with
      | Var v =>
        have hcond : ¬ (v = p ∧ p ∉ FreeVars fuel f) := by
          rintro ⟨rfl, hnot⟩
          exact hnot (hroot f v rfl rfl)
        cases fuel <;> simp [EtaConvert, hcond]
      | Abstraction q c => cases fuel <;> simp [EtaConvert]
      | Application g h => cases fuel <;> simp [EtaConvert]
      | LazyScript s => cases fuel <;> simp [EtaConvert]

/-- Witness for C8 at a concrete input: `λx.(y x)` eta-reduces to `y`. -/
theorem etaStep_spec_witness :
    EtaConvert 0 (Term.Abstraction "x" (Term.Application (Term.Var "y") (Term.Var "x")))
      = (Term.Var "y", true) := by
  apply etaStep_spec.1 0 "x" (Term.Var "y")
  simp [FreeVars]

/-! The reduction trace of `ChurchNumeral n` applied to the decoder markers,
for C10. -/

theorem subst_churchBody (fuel : Nat) : ∀ n,
    Substitute fuel (churchBody n) "f" (Term.Var "SUCC_MARKER") = markerChain n := by
  intro n
  induction n with
  | zero => cases fuel <;> simp [churchBody, markerChain, Substitute]
  | succ m ih =>
    have happ := substitute_spec.2.2.2.2.1
    rw [churchBody, happ, ih]
    have hvar := substitute_spec.1
    rw [hvar]
    simp [markerChain]

theorem subst_markerChain (fuel : Nat) : ∀ n,
    Substitute fuel (markerChain n) "x" (Term.Var "ZERO_MARKER") = markerChainZ n := by
  intro n
  induction n with
  | zero => cases fuel <;> simp [markerChain, markerChainZ, Substitute]
  | succ m ih =>
    have happ := substitute_spec.2.2.2.2.1
    rw [markerChain, happ, ih]
    have hvar := substitute_spec.1
    rw [hvar]
    simp [markerChainZ]

theorem beta_markerChainZ (fuel : Nat) : ∀ n,
    BetaReduce fuel (markerChainZ n) = (markerChainZ n, false) := by
  intro n
  induction n with
  | zero => cases fuel <;> simp [markerChainZ, BetaReduce]
  | succ m ih =>
    rw [markerChainZ]
    cases fuel <;> simp [BetaReduce, ih]

theorem count_markerChainZ : ∀ n, countApplications (markerChainZ n) "SUCC_MARKER" = n := by
  intro n
  induction n with
  | zero => simp [markerChainZ, countApplications]
  | succ m ih => simp [markerChainZ, countApplications, ih]; omega

theorem beta_church_step1 (fuel : Nat) (n : Nat) :
    BetaReduce fuel
      (Term.Application
        (Term.Application (ChurchNumeral n) (Term.Var "SUCC_MARKER"))
        (Term.Var "ZERO_MARKER"))
      = (Term.Application (Term.Abstraction "x" (markerChain n)) (Term.Var "ZERO_MARKER"),
         true) := by
  have hinner : BetaReduce fuel (Term.Application (ChurchNumeral n) (Term.Var "SUCC_MARKER"))
      = (Term.Abstraction "x" (markerChain n), true) := by
    rw [ChurchNumeral, betaStep_normal_order.2.1]
    have hnc : Substitute fuel (Term.Abstraction "x" (churchBody n)) "f"
        (Term.Var "SUCC_MARKER")
        = Term.Abstraction "x" (Substitute fuel (churchBody n) "f"
            (Term.Var "SUCC_MARKER")) := by
      apply substitute_spec.2.2.2.1
      · decide
      · cases fuel <;> simp [FreeVars]
    rw [hnc, subst_churchBody]
  rw [betaStep_normal_order.2.2.1 fuel
    (Term.Application (ChurchNumeral n) (Term.Var "SUCC_MARKER")) (Term.Var "ZERO_MARKER")
    (fun p b h => Term.noConfusion h) (fun s h => Term.noConfusion h)]
  rw [hinner]
  simp

theorem beta_church_step2 (fuel : Nat) (n : Nat) :
    BetaReduce fuel
      (Term.Application (Term.Abstraction "x" (markerChain n)) (Term.Var "ZERO_MARKER"))
      = (markerChainZ n, true) := by
  rw [betaStep_normal_order.2.1, subst_markerChain]

/-- C10: encoder/decoder round trip: for every `n ≥ 0` (every `Nat`),
`ToInt (ChurchNumeral n) = n` — the synthesized numeral applied to the
successor and zero markers reduces (in 2 of the at most 1000 allowed steps)
to the `n`-fold successor chain, whose nested marker applications count back
to exactly `n`, with no error outcome. -/
theorem toInt_churchNumeral : ∀ (fuel n : Nat), ToInt fuel (ChurchNumeral n) = n := by
  intro fuel n
  have hstep : ∀ (m : Nat) t, (BetaReduce fuel t).2 = true →
      ReduceLoop fuel (m+1) t
        = ((ReduceLoop fuel m (BetaReduce fuel t).1).1,
           (ReduceLoop fuel m (BetaReduce fuel t).1).2 + 1) := by
    intro m t h; simp [ReduceLoop, h]
  have hhalt : ∀ (m : Nat) t, (BetaReduce fuel t).2 = false →
      ReduceLoop fuel m t = (t, 0) := by
    intro m t h
    cases m with
    | zero => rfl
    | succ m' => simp [ReduceLoop, h]
  have h1 := beta_church_step1 fuel n
  have h2 := beta_church_step2 fuel n
  have h3 := beta_markerChainZ fuel n
  unfold ToInt Reduce
  have hlim : ¬ (1000 : Int) ≤ 0 := by decide
  rw [if_neg hlim]
  show countApplications (ReduceLoop fuel (1000 : Int).toNat _).1 "SUCC_MARKER" = n
  have ht : ((1000 : Int)).toNat = 999 + 1 := by decide
  rw [ht]
  rw [hstep 999 _ (by rw [h1])]
  simp only [h1]
  rw [show (999 : Nat) = 998 + 1 from rfl]
  rw [hstep 998 _ (by rw [h2])]
  simp only [h2]
  rw [hhalt 998 _ (by rw [h3])]
  simpa using count_markerChainZ n

/-! Lemmas on the scanning helpers of the parser. -/

theorem skipWhitespaceCore_noop (cs : List Char) (p : Nat)
    (h : ∀ c cs', cs = c :: cs' → c.isWhitespace = false) :
    skipWhitespaceCore cs p = (cs, p) := by
  cases cs with
  | nil => rfl
  | cons c cs' => simp [skipWhitespaceCore, h c cs' rfl]

theorem skipWhitespace_noop (st : PState)
    (h : ∀ c cs', st.rest = c :: cs' → c.isWhitespace = false) :
    skipWhitespace st = st := by
  unfold skipWhitespace
  rw [skipWhitespaceCore_noop st.rest st.pos h]

theorem takeIdentChars_spec : ∀ (xs rest : List Char), xs.all isIdentChar = true →
    (∀ d ds, rest = d :: ds → isIdentChar d = false) →
    takeIdentChars (xs ++ rest) = (xs, rest) := by
  intro xs
  induction xs with
  | nil =>
    intro rest _ hrest
    cases rest with
    | nil => rfl
    | cons d ds => simp [takeIdentChars, hrest d ds rfl]
  | cons c cs ih =>
    intro rest hall hrest
    simp only [List.all_cons, Bool.and_eq_true] at hall
    simp [takeIdentChars, hall.1, ih rest hall.2 hrest]

theorem parseIdentifier_spec (c : Char) (cs rest : List Char) (pos : Nat)
    (hstart : isIdentStart c = true) (hall : cs.all isIdentChar = true)
    (hrest : ∀ d ds, rest = d :: ds → isIdentChar d = false) :
    parseIdentifier ⟨c :: (cs ++ rest), pos⟩
      = (⟨c :: cs⟩, ⟨rest, pos + 1 + cs.length⟩) := by
  simp [parseIdentifier, hstart, takeIdentChars_spec cs rest hall hrest]

/-- `parseTerm` on an identifier consumes exactly the identifier and
resolves it through `resolveIdent`. -/
theorem parseTerm_ident (c : Char) (cs rest : List Char) (pos fuel : Nat)
    (hstart : isIdentStart c = true) (hall : cs.all isIdentChar = true)
    (hrest : ∀ d ds, rest = d :: ds → isIdentChar d = false) :
    parseTerm (fuel+1) ⟨c :: (cs ++ rest), pos⟩
      = (Except.ok (resolveIdent ⟨c :: cs⟩), ⟨rest, pos + 1 + cs.length⟩) := by
  have hident := charIdent_facts c (charStart_ident c hstart)
  have hws : ∀ d ds', (c :: (cs ++ rest)) = d :: ds' → d.isWhitespace = false := by
    rintro d ds' ⟨rfl, rfl⟩; exact hident.1
  have hskip : skipWhitespace ⟨c :: (cs ++ rest), pos⟩ = ⟨c :: (cs ++ rest), pos⟩ :=
    skipWhitespace_noop _ hws
  have hid : parseIdentifier ⟨c :: (cs ++ rest), pos⟩
      = (⟨c :: cs⟩, ⟨rest, pos + 1 + cs.length⟩) :=
    parseIdentifier_spec c cs rest pos hstart hall hrest
  simp only [parseTerm, hskip]
  split
  · rename_i heq; cases heq
  · rename_i cs1 heq
    injection heq with h1 h2
    exact absurd h1 hident.2.2.2.1
  · rename_i c1 tail heq
    injection heq with h1 h2
    subst h1; subst h2
    rw [if_neg (by simp [hident.2.1, hident.2.2.1])]
    rw [hid]
    have hne : ({ data := c :: cs } : String) ≠ "" := by
      intro hc
      have := congrArg String.data hc
      simp at this
    rw [if_neg hne]

/-- An identifier that does not begin with an underscore resolves to a
literal variable. -/
theorem resolveIdent_not_underscore (name : String)
    (h : name.data.head? ≠ some '_') : resolveIdent name = Term.Var name := by
  simp [resolveIdent, h]

/-- C9: identifier resolution: a `_`-led all-digits identifier synthesizes
`ChurchNumeral` of its decimal value directly (no registry lookup); any
other identifier consults the defined-constants table; a name absent there
resolves to a literal free variable — `parseTerm` succeeds on any unknown
`_NAME` token. -/
theorem lookup_constant_spec :
    (∀ ds : List Char, ds ≠ [] → ds.all Char.isDigit = true →
        lookupConstant ⟨'_' :: ds⟩ = some (ChurchNumeral (digitsVal 0 ds)))
    ∧ (∀ (name : String) (c : Char) (cs : List Char), name.data = c :: cs →
        (c ≠ '_' ∨ cs = [] ∨ cs.all Char.isDigit = false) →
        lookupConstant name
          = (constantsTable.find? (fun p => p.1 = name)).map (fun p => p.2))
    ∧ (∀ (c : Char) (cs : List Char) (pos fuel : Nat), isIdentStart c = true →
        cs.all isIdentChar = true → lookupConstant ⟨c :: cs⟩ = none →
        parseTerm (fuel+1) ⟨c :: cs, pos⟩
          = (Except.ok (Term.Var ⟨c :: cs⟩), ⟨[], pos + 1 + cs.length⟩))
    ∧ (∀ (cs : List Char) (pos fuel : Nat) (obj : Term),
        cs.all isIdentChar = true → lookupConstant ⟨'_' :: cs⟩ = some obj →
        parseTerm (fuel+1) ⟨'_' :: cs, pos⟩
          = (Except.ok obj, ⟨[], pos + 1 + cs.length⟩)) := by
  have hterm : ∀ (c : Char) (cs : List Char) (pos fuel : Nat), isIdentStart c = true →
      cs.all isIdentChar = true →
      parseTerm (fuel+1) ⟨c :: cs, pos⟩
        = (Except.ok (resolveIdent ⟨c :: cs⟩), ⟨[], pos + 1 + cs.length⟩) := by
    intro c cs pos fuel hstart hall
    have := parseTerm_ident c cs [] pos fuel hstart hall (by intro d ds h; cases h)
    simpa using this
  refine ⟨?_, ?_, ?_, ?_⟩
  · intro ds hne hdig
    show lookupConstant ⟨'_' :: ds⟩ = _
    have : (⟨'_' :: ds⟩ : String).data = '_' :: ds := rfl
    rw [lookupConstant]
    simp only [this]
    rw [if_pos ⟨hne, hdig⟩]
  · intro name c cs hdata hside
    rw [lookupConstant]
    rw [hdata]
    by_cases hc : c = '_'
    · subst hc
      show (if cs ≠ [] ∧ cs.all Char.isDigit = true then some (ChurchNumeral (digitsVal 0 cs))
            else (constantsTable.find? (fun p => p.1 = name)).map (fun p => p.2)) = _
      rw [if_neg]
      rintro ⟨h1, h2⟩
      rcases hside with h | h | h
      · exact h rfl
      · exact h1 h
      · rw [h] at h2; cases h2
    · split
      · rename_i rest heq
        injection heq with e1 e2
        exact absurd e1 hc
      · rfl
  · intro c cs pos fuel hstart hall hnone
    rw [hterm c cs pos fuel hstart hall]
    by_cases hc : c = '_'
    · subst hc
      simp [resolveIdent, hnone]
    · rw [resolveIdent_not_underscore]
      simp [hc]
  · intro cs pos fuel obj hall hsome
    rw [hterm '_' cs pos fuel (by decide) hall]
    simp [resolveIdent, hsome]

/-- Witness for C9 at concrete inputs: `_42` synthesizes the Church numeral
42, `_PLUS` resolves through the table, and unknown `_UNKNOWN` parses as a
literal free variable. -/
theorem lookup_constant_spec_witness :
    lookupConstant "_42" = some (ChurchNumeral 42)
    ∧ lookupConstant "_PLUS" = some PLUS
    ∧ lookupConstant "_UNKNOWN" = none
    ∧ parseTerm 1 ⟨"_UNKNOWN".data, 0⟩
      = (Except.ok (Term.Var "_UNKNOWN"), ⟨[], 8⟩) := by
  refine ⟨?_, by decide, by decide, ?_⟩
  · have h := lookup_constant_spec.1 ['4', '2'] (by decide) (by decide)
    have : digitsVal 0 ['4', '2'] = 42 := by decide
    rw [this] at h
    exact h
  · have h := lookup_constant_spec.2.2.1 '_' "UNKNOWN".data 0 0 (by decide) (by decide)
      (by decide)
    simpa using h

/-! Structure of the rendered string of a term, towards the round-trip
property (C3). -/

theorem data_append (s t : String) : (s ++ t).data = s.data ++ t.data := by
  cases s; cases t; rfl

theorem goodId_spec (n : String) (h : goodId n = true) :
    ∃ c cs, n.data = c :: cs ∧ c.isAlpha = true ∧ cs.all isIdentChar = true := by
  unfold goodId at h
  rcases hd : n.data with _ | ⟨c, cs⟩
  · rw [hd] at h; cases h
  · rw [hd] at h
    simp only [Bool.and_eq_true] at h
    exact ⟨c, cs, rfl, h.1, h.2⟩

theorem resolveIdent_good (n : String) (h : goodId n = true) :
    resolveIdent n = Term.Var n := by
  obtain ⟨c, cs, hd, halpha, _⟩ := goodId_spec n h
  apply resolveIdent_not_underscore
  rw [hd]
  intro hc
  injection hc with hc
  exact (charAlpha_facts c halpha).2.2 hc

theorem TermString_var (fl : Nat) (n : String) : TermString fl (Term.Var n) = n := by
  simp [TermString]

theorem TermString_abs (fl : Nat) (p : String) (b : Term) :
    TermString fl (Term.Abstraction p b) = "λ" ++ p ++ "." ++ TermString fl b := by
  simp [TermString]

theorem TermString_app (fl : Nat) (f a : Term) :
    TermString fl (Term.Application f a)
      = funcString fl f ++ " " ++ argString fl a := by
  cases f <;> cases a <;> simp [TermString, funcString, argString]

theorem funcString_eq_argString (fl : Nat) (h : Term)
    (hnotapp : ∀ f a, h ≠ Term.Application f a) :
    funcString fl h = argString fl h := by
  cases h with
  | Application f a => exact absurd rfl (hnotapp f a)
  | Var n => rfl
  | Abstraction p b => rfl
  | LazyScript s => rfl

theorem spineHead_not_app : ∀ t f a, spineHead t ≠ Term.Application f a := by
  intro t
  induction t with
  | Application g h ihg iha => intro f a; exact ihg f a
  | Var n => intro f a hc; exact Term.noConfusion hc
  | Abstraction p b ih => intro f a hc; exact Term.noConfusion hc
  | LazyScript s => intro f a hc; exact Term.noConfusion hc

theorem spine_foldl : ∀ t, (spineArgs t).foldl Term.Application (spineHead t) = t := by
  intro t
  induction t with
  | Application f a ihf iha =>
    show ((spineArgs f ++ [a]).foldl Term.Application (spineHead f)) = _
    rw [List.foldl_append, ihf]
    rfl
  | Var n => rfl
  | Abstraction p b ih => rfl
  | LazyScript s => rfl

theorem argsChars_append (fl : Nat) : ∀ (xs : List Term) (a : Term),
    argsChars fl (xs ++ [a]) = argsChars fl xs ++ (' ' :: (argString fl a).data) := by
  intro xs a
  induction xs with
  | nil => simp [argsChars]
  | cons x xs ih => simp [argsChars, ih]

theorem spine_chars (fl : Nat) : ∀ f a,
    (TermString fl (Term.Application f a)).data
      = (funcString fl (spineHead (Term.Application f a))).data
        ++ argsChars fl (spineArgs (Term.Application f a)) := by
  intro f
  induction f with
  | Application g h ihg ihh =>
    intro a
    rw [TermString_app, data_append, data_append]
    have hfs : funcString fl (Term.Application g h)
        = TermString fl (Term.Application g h) := rfl
    rw [hfs, ihg h]
    show _ = (funcString fl (spineHead (Term.Application g h))).data
      ++ argsChars fl (spineArgs (Term.Application g h) ++ [a])
    rw [argsChars_append]
    simp [List.append_assoc]
  | Var n =>
    intro a
    rw [TermString_app, data_append, data_append]
    show _ = (funcString fl (Term.Var n)).data ++ argsChars fl [a]
    simp [argsChars]
  | Abstraction p b ih =>
    intro a
    rw [TermString_app, data_append, data_append]
    show _ = (funcString fl (Term.Abstraction p b)).data ++ argsChars fl [a]
    simp [argsChars]
  | LazyScript s =>
    intro a
    rw [TermString_app, data_append, data_append]
    show _ = (funcString fl (Term.LazyScript s)).data ++ argsChars fl [a]
    simp [argsChars]

theorem spineArgs_ne_nil (f a : Term) : spineArgs (Term.Application f a) ≠ [] := by
  rw [spineArgs]
  simp

theorem GoodTerm_spine : ∀ t, GoodTerm t = true →
    GoodTerm (spineHead t) = true ∧ ∀ a ∈ spineArgs t, GoodTerm a = true := by
  intro t
  induction t with
  | Application f a ihf iha =>
    intro h
    rw [GoodTerm, Bool.and_eq_true] at h
    obtain ⟨hh, hargs⟩ := ihf h.1
    refine ⟨hh, ?_⟩
    intro x hx
    rw [spineArgs, List.mem_append] at hx
    rcases hx with hx | hx
    · exact hargs x hx
    · simp only [List.mem_singleton] at hx
      subst hx
      exact h.2
  | Var n => intro h; exact ⟨h, by intro a ha; cases ha⟩
  | Abstraction p b ih => intro h; exact ⟨h, by intro a ha; cases ha⟩
  | LazyScript s => intro h; exact ⟨h, by intro a ha; cases ha⟩

theorem funcString_head (fl : Nat) : ∀ h, GoodTerm h = true →
    ∃ c cs, (funcString fl h).data = c :: cs ∧ (c.isAlpha = true ∨ c = '(') := by
  intro h
  induction h with
  | Var n =>
    intro hg
    obtain ⟨c, cs, hd, halpha, _⟩ := goodId_spec n hg
    refine ⟨c, cs, ?_, Or.inl halpha⟩
    have hfs : funcString fl (Term.Var n) = TermString fl (Term.Var n) := rfl
    rw [hfs, TermString_var]
    exact hd
  | Abstraction p b ih =>
    intro hg
    refine ⟨'(', ((TermString fl (Term.Abstraction p b)) ++ ")").data, ?_, Or.inr rfl⟩
    show (("(" ++ (TermString fl (Term.Abstraction p b) ++ ")")).data) = _
    rw [data_append]
    rfl
  | Application f a ihf iha =>
    intro hg
    rw [GoodTerm, Bool.and_eq_true] at hg
    obtain ⟨c, cs, hd, hc⟩ := ihf hg.1
    refine ⟨c, cs ++ (" " ++ argString fl a).data, ?_, hc⟩
    show (TermString fl (Term.Application f a)).data = _
    rw [TermString_app, data_append, data_append, hd]
    simp
  | LazyScript s => intro hg; cases hg

theorem argString_head (fl : Nat) : ∀ a, GoodTerm a = true →
    ∃ c cs, (argString fl a).data = c :: cs ∧ (c.isAlpha = true ∨ c = '(') := by
  intro a
  cases a with
  | Var n =>
    intro hg
    obtain ⟨c, cs, hd, halpha, _⟩ := goodId_spec n hg
    refine ⟨c, cs, ?_, Or.inl halpha⟩
    have has : argString fl (Term.Var n) = TermString fl (Term.Var n) := rfl
    rw [has, TermString_var]
    exact hd
  | Abstraction p b =>
    intro hg
    refine ⟨'(', ((TermString fl (Term.Abstraction p b)) ++ ")").data, ?_, Or.inr rfl⟩
    show (("(" ++ (TermString fl (Term.Abstraction p b) ++ ")")).data) = _
    rw [data_append]
    rfl
  | Application f b =>
    intro hg
    refine ⟨'(', ((TermString fl (Term.Application f b)) ++ ")").data, ?_, Or.inr rfl⟩
    show (("(" ++ (TermString fl (Term.Application f b) ++ ")")).data) = _
    rw [data_append]
    rfl
  | LazyScript s => intro hg; cases hg

theorem TermString_head (fl : Nat) : ∀ t, GoodTerm t = true →
    ∃ c cs, (TermString fl t).data = c :: cs ∧ (c.isAlpha = true ∨ c = '(' ∨ c = 'λ') := by
  intro t
  cases t with
  | Var n =>
    intro hg
    obtain ⟨c, cs, hd, halpha, _⟩ := goodId_spec n hg
    exact ⟨c, cs, by rw [TermString_var]; exact hd, Or.inl halpha⟩
  | Abstraction p b =>
    intro hg
    refine ⟨'λ', (p ++ "." ++ TermString fl b).data, ?_, Or.inr (Or.inr rfl)⟩
    rw [TermString_abs]
    show (("λ" ++ p ++ "." ++ TermString fl b)).data = _
    rw [data_append, data_append, data_append]
    simp
  | Application f a =>
    intro hg
    rw [GoodTerm, Bool.and_eq_true] at hg
    obtain ⟨c, cs, hd, hc⟩ := funcString_head fl f hg.1
    refine ⟨c, cs ++ (" " ++ argString fl a).data, ?_, ?_⟩
    · rw [TermString_app, data_append, data_append, hd]
      simp
    · rcases hc with hc | hc
      · exact Or.inl hc
      · exact Or.inr (Or.inl hc)
  | LazyScript s => intro hg; cases hg

theorem getLast_cons_ne (a : Char) (xs : List Char) (h : xs ≠ []) :
    (a :: xs).getLast? = xs.getLast? := by
  cases xs with
  | nil => exact absurd rfl h
  | cons b bs => exact List.getLast?_cons_cons

theorem getLast_append_right : ∀ (as bs : List Char), bs ≠ [] →
    (as ++ bs).getLast? = bs.getLast? := by
  intro as
  induction as with
  | nil => intro bs h; rfl
  | cons a as ih =>
    intro bs h
    rw [List.cons_append, getLast_cons_ne a (as ++ bs) (by simp [h]), ih bs h]

theorem all_getLast (cs : List Char) (p : Char → Bool) (h : cs.all p = true)
    (l : Char) (hl : cs.getLast? = some l) : p l = true := by
  have hmem : l ∈ cs.getLast? := by rw [hl]; rfl
  obtain ⟨hne, heq⟩ := List.mem_getLast?_eq_getLast hmem
  subst heq
  exact List.all_eq_true.mp h _ (List.getLast_mem hne)

theorem goodId_last (n : String) (h : goodId n = true) :
    ∃ l, n.data.getLast? = some l ∧ isIdentChar l = true := by
  obtain ⟨c, cs, hd, halpha, hall⟩ := goodId_spec n h
  cases hcs : cs with
  | nil =>
    subst hcs
    exact ⟨c, by rw [hd]; rfl, (charAlpha_facts c halpha).1⟩
  | cons d ds =>
    subst hcs
    have hne : (d :: ds : List Char) ≠ [] := by simp
    obtain ⟨l, hl⟩ : ∃ l, (d :: ds : List Char).getLast? = some l := by
      cases hgl : (d :: ds : List Char).getLast? with
      | none => rw [List.getLast?_eq_none_iff] at hgl; cases hgl
      | some l => exact ⟨l, rfl⟩
    refine ⟨l, ?_, all_getLast _ _ hall l hl⟩
    rw [hd, getLast_cons_ne c _ hne, hl]

theorem argString_last (fl : Nat) (a : Term) (hg : GoodTerm a = true) :
    ∃ l, (argString fl a).data.getLast? = some l
      ∧ (isIdentChar l = true ∨ l = ')') := by
  cases a with
  | Var n =>
    obtain ⟨l, hl, hident⟩ := goodId_last n hg
    have has : argString fl (Term.Var n) = TermString fl (Term.Var n) := rfl
    rw [has, TermString_var]
    exact ⟨l, hl, Or.inl hident⟩
  | Abstraction p b =>
    refine ⟨')', ?_, Or.inr rfl⟩
    have has : argString fl (Term.Abstraction p b)
        = "(" ++ TermString fl (Term.Abstraction p b) ++ ")" := rfl
    rw [has, data_append, data_append]
    rw [getLast_append_right _ _ (by decide)]
    rfl
  | Application f b =>
    refine ⟨')', ?_, Or.inr rfl⟩
    have has : argString fl (Term.Application f b)
        = "(" ++ TermString fl (Term.Application f b) ++ ")" := rfl
    rw [has, data_append, data_append]
    rw [getLast_append_right _ _ (by decide)]
    rfl
  | LazyScript s => cases hg

theorem render_last (fl : Nat) : ∀ t, GoodTerm t = true →
    ∃ l, (TermString fl t).data.getLast? = some l
      ∧ (isIdentChar l = true ∨ l = ')') := by
  intro t
  induction t with
  | Var n =>
    intro hg
    obtain ⟨l, hl, hident⟩ := goodId_last n hg
    rw [TermString_var]
    exact ⟨l, hl, Or.inl hident⟩
  | Abstraction p b ih =>
    intro hg
    rw [GoodTerm, Bool.and_eq_true] at hg
    obtain ⟨l, hl, hli⟩ := ih hg.2
    obtain ⟨c, cs, hd, _⟩ := TermString_head fl b hg.2
    refine ⟨l, ?_, hli⟩
    rw [TermString_abs, data_append]
    rw [getLast_append_right _ _ (by rw [hd]; simp), hl]
  | Application f a ihf iha =>
    intro hg
    rw [GoodTerm, Bool.and_eq_true] at hg
    obtain ⟨l, hl, hli⟩ := argString_last fl a hg.2
    obtain ⟨c, cs, hd, _⟩ := argString_head fl a hg.2
    refine ⟨l, ?_, hli⟩
    rw [TermString_app, data_append]
    rw [getLast_append_right _ _ (by rw [hd]; simp), hl]
  | LazyScript s => intro hg; cases hg

theorem trimChars_noop (cs : List Char)
    (hh : ∀ c cs', cs = c :: cs' → c.isWhitespace = false)
    (hl : ∀ l, cs.getLast? = some l → l.isWhitespace = false) :
    trimChars cs = cs := by
  unfold trimChars
  cases hcs : cs with
  | nil => rfl
  | cons c cs' =>
    have h1 : (c :: cs').dropWhile Char.isWhitespace = c :: cs' := by
      rw [List.dropWhile_cons]
      rw [hh c cs' hcs]
      simp
    rw [h1]
    have h2 : (c :: cs').reverse.dropWhile Char.isWhitespace = (c :: cs').reverse := by
      cases hrev : (c :: cs').reverse with
      | nil => rfl
      | cons d ds =>
        rw [List.dropWhile_cons]
        have hgl : (c :: cs').getLast? = some d := by
          rw [← List.head?_reverse, hrev]
          rfl
        rw [hl d (by rw [← hcs] at hgl; exact hgl)]
        simp
    rw [h2, List.reverse_reverse]

theorem skipWhitespaceCore_space (xs : List Char) (p : Nat)
    (h : ∀ c cs', xs = c :: cs' → c.isWhitespace = false) :
    skipWhitespaceCore (' ' :: xs) p = (xs, p + 1) := by
  rw [skipWhitespaceCore]
  rw [if_pos (by decide)]
  exact skipWhitespaceCore_noop xs (p+1) h

/-- `parseExpr` on input starting with 'λ' dispatches to `parseAbstraction`. -/
theorem parseExpr_lam (fuel : Nat) (cs : List Char) (pos : Nat) :
    parseExpr (fuel+1) ⟨'λ' :: cs, pos⟩ = parseAbstraction fuel ⟨'λ' :: cs, pos⟩ := by
  simp only [parseExpr]
  rw [skipWhitespace_noop ⟨'λ' :: cs, pos⟩ (by rintro d ds ⟨rfl, rfl⟩; decide)]
  rfl

/-- `parseExpr` on input not starting with 'λ' or '\' dispatches to
`parseApplication`. -/
theorem parseExpr_notlam (fuel : Nat) (c : Char) (cs : List Char) (pos : Nat)
    (hws : c.isWhitespace = false) (h1 : c ≠ 'λ') (h2 : c ≠ '\\') :
    parseExpr (fuel+1) ⟨c :: cs, pos⟩ = parseApplication fuel ⟨c :: cs, pos⟩ := by
  simp only [parseExpr]
  rw [skipWhitespace_noop ⟨c :: cs, pos⟩ (by rintro d ds ⟨rfl, rfl⟩; exact hws)]
  split
  · rename_i heq; cases heq
  · rename_i c1 tail heq
    injection heq with hh1 hh2
    subst hh1
    rw [if_neg (by simp [h1, h2])]

/-- `parseAbstraction` on `λ` followed by a well-formed parameter and a dot
consumes them and hands the remainder to `parseExpr`. -/
theorem parseAbstraction_step (fuel : Nat) (pc : Char) (pcs tail : List Char) (pos : Nat)
    (hpstart : isIdentStart pc = true) (hpall : pcs.all isIdentChar = true) :
    parseAbstraction (fuel+1) ⟨'λ' :: (pc :: (pcs ++ ('.' :: tail))), pos⟩
      = (match parseExpr fuel ⟨tail, pos + 1 + 1 + pcs.length + 1⟩ with
         | (Except.ok body, st3) => (Except.ok (Term.Abstraction ⟨pc :: pcs⟩ body), st3)
         | (Except.error e, st3) => (Except.error e, st3)) := by
  have hident := charIdent_facts pc (charStart_ident pc hpstart)
  simp only [parseAbstraction]
  split
  · rw [skipWhitespace_noop ⟨pc :: (pcs ++ ('.' :: tail)), pos + 1⟩ (by
      rintro d ds ⟨rfl, rfl⟩; exact hident.1)]
    rw [parseIdentifier_spec pc pcs ('.' :: tail) (pos + 1) hpstart hpall
      (by rintro d ds ⟨rfl, rfl⟩; decide)]
    have hne : ({ data := pc :: pcs } : String) ≠ "" := by
      intro hc
      have := congrArg String.data hc
      simp at this
    rw [if_neg hne]
    rw [skipWhitespace_noop ⟨'.' :: tail, pos + 1 + 1 + pcs.length⟩ (by
      rintro d ds ⟨rfl, rfl⟩; decide)]
    rfl
  · rename_i heq
    simp at heq

/-- Soundness of the recursive descent on rendered good terms, by strong
induction on the fuel: `parseTerm` consumes exactly an argument-position
rendering, `parseExpr` consumes exactly a full rendering, and the
application loop consumes exactly a rendered argument list, each returning
the original term. -/
theorem parser_roundtrip_aux : ∀ fuel : Nat,
    (∀ (t : Term) (fl : Nat) (rest : List Char) (pos : Nat), GoodTerm t = true →
      (∀ d ds, rest = d :: ds → isIdentChar d = false) →
      3 * (argString fl t).data.length ≤ fuel →
      parseTerm fuel ⟨(argString fl t).data ++ rest, pos⟩
        = (Except.ok t, ⟨rest, pos + (argString fl t).data.length⟩))
    ∧ (∀ (t : Term) (fl : Nat) (rest : List Char) (pos : Nat), GoodTerm t = true →
      StopRest rest →
      3 * (TermString fl t).data.length + 2 ≤ fuel →
      parseExpr fuel ⟨(TermString fl t).data ++ rest, pos⟩
        = (Except.ok t, ⟨rest, pos + (TermString fl t).data.length⟩))
    ∧ (∀ (args : List Term) (left : Term) (fl : Nat) (rest : List Char) (pos : Nat),
      (∀ a ∈ args, GoodTerm a = true) → StopRest rest →
      3 * (argsChars fl args).length + 2 ≤ fuel →
      parseAppLoop fuel left ⟨argsChars fl args ++ rest, pos⟩
        = (Except.ok (args.foldl Term.Application left),
           ⟨rest, pos + (argsChars fl args).length⟩)) := by
  intro fuel
  induction fuel using Nat.strong_induction_on with
  | _ fuel IH =>
  have hstopws : ∀ rest : List Char, StopRest rest →
      ∀ c cs', rest = c :: cs' → c.isWhitespace = false := by
    rintro rest (rfl | ⟨rs, rfl⟩) c cs' heq
    · cases heq
    · injection heq with h1 _; subst h1; decide
  have hstopident : ∀ rest : List Char, StopRest rest →
      ∀ d ds, rest = d :: ds → isIdentChar d = false := by
    rintro rest (rfl | ⟨rs, rfl⟩) d ds heq
    · cases heq
    · injection heq with h1 _; subst h1; decide
  refine ⟨?_, ?_, ?_⟩
  -- Part 1: parseTerm on an argument-position rendering
  · intro t fl rest pos hg hrest hfuel
    obtain ⟨cH, csH, hdH, _⟩ := argString_head fl t hg
    have hf1 : 1 ≤ fuel := by rw [hdH] at hfuel; simp at hfuel; omega
    obtain ⟨g, rfl⟩ : ∃ g, fuel = g + 1 := ⟨fuel - 1, by omega⟩
    cases t with
    | LazyScript s => cases hg
    | Var n =>
      obtain ⟨c, cs, hd, halpha, hall⟩ := goodId_spec n hg
      have ha : argString fl (Term.Var n) = n := by
        have h1 : argString fl (Term.Var n) = TermString fl (Term.Var n) := rfl
        rw [h1, TermString_var]
      rw [ha] at hfuel ⊢
      rw [hd, List.cons_append]
      rw [parseTerm_ident c cs rest pos g ((charAlpha_facts c halpha).2.1) hall hrest]
      have hn : (⟨c :: cs⟩ : String) = n := by rw [← hd]
      rw [hn, resolveIdent_good n hg]
      have harith : pos + 1 + cs.length = pos + (c :: cs).length := by
        simp only [List.length_cons]
        omega
      rw [harith]
    | Abstraction p b =>
      have ha : argString fl (Term.Abstraction p b)
          = "(" ++ TermString fl (Term.Abstraction p b) ++ ")" := rfl
      have hdata : (argString fl (Term.Abstraction p b)).data
          = '(' :: ((TermString fl (Term.Abstraction p b)).data ++ [')']) := by
        rw [ha, data_append, data_append]; rfl
      rw [hdata] at hfuel ⊢
      rw [List.cons_append, List.append_assoc, List.singleton_append]
      have hL2 := (IH g (by omega)).2.1 (Term.Abstraction p b) fl (')' :: rest) (pos + 1)
        hg (Or.inr ⟨rest, rfl⟩) (by simp at hfuel ⊢; omega)
      simp only [parseTerm]
      rw [skipWhitespace_noop ⟨'(' :: _, pos⟩ (by rintro c cs' ⟨rfl, rfl⟩; decide)]
      simp only [hL2]
      rw [skipWhitespace_noop ⟨')' :: rest, _⟩ (by rintro c cs' ⟨rfl, rfl⟩; decide)]
      simp only [List.length_cons, List.length_append, List.length_cons, List.length_nil]
      have harith : pos + 1 + (TermString fl (Term.Abstraction p b)).data.length + 1
          = pos + ((TermString fl (Term.Abstraction p b)).data.length + 1 + 1) := by omega
      rw [← harith]
    | Application f a =>
      have ha : argString fl (Term.Application f a)
          = "(" ++ TermString fl (Term.Application f a) ++ ")" := rfl
      have hdata : (argString fl (Term.Application f a)).data
          = '(' :: ((TermString fl (Term.Application f a)).data ++ [')']) := by
        rw [ha, data_append, data_append]; rfl
      rw [hdata] at hfuel ⊢
      rw [List.cons_append, List.append_assoc, List.singleton_append]
      have hL2 := (IH g (by omega)).2.1 (Term.Application f a) fl (')' :: rest) (pos + 1)
        hg (Or.inr ⟨rest, rfl⟩) (by simp at hfuel ⊢; omega)
      simp only [parseTerm]
      rw [skipWhitespace_noop ⟨'(' :: _, pos⟩ (by rintro c cs' ⟨rfl, rfl⟩; decide)]
      simp only [hL2]
      rw [skipWhitespace_noop ⟨')' :: rest, _⟩ (by rintro c cs' ⟨rfl, rfl⟩; decide)]
      simp only [List.length_cons, List.length_append, List.length_cons, List.length_nil]
      have harith : pos + 1 + (TermString fl (Term.Application f a)).data.length + 1
          = pos + ((TermString fl (Term.Application f a)).data.length + 1 + 1) := by omega
      rw [← harith]
  -- Part 2: parseExpr on a full rendering
  · intro t fl rest pos hg hstop hfuel
    obtain ⟨cH, csH, hdH, hheadH⟩ := TermString_head fl t hg
    have hf1 : 5 ≤ fuel := by rw [hdH] at hfuel; simp at hfuel; omega
    obtain ⟨g, rfl⟩ : ∃ g, fuel = g + 1 := ⟨fuel - 1, by omega⟩
    have hwsH : ∀ c cs', (TermString fl t).data ++ rest = c :: cs' →
        c.isWhitespace = false := by
      rw [hdH]
      rintro c cs' ⟨rfl, rfl⟩
      rcases hheadH with h | h | h
      · exact (charIdent_facts cH (charAlpha_facts cH h).1).1
      · subst h; decide
      · subst h; decide
    cases t with
    | LazyScript s => cases hg
    | Abstraction p b =>
      rw [GoodTerm, Bool.and_eq_true] at hg
      obtain ⟨pc, pcs, hpd, hpalpha, hpall⟩ := goodId_spec p hg.1
      have hdata : (TermString fl (Term.Abstraction p b)).data
          = 'λ' :: (p.data ++ ('.' :: (TermString fl b).data)) := by
        rw [TermString_abs, data_append, data_append, data_append]
        show ['λ'] ++ p.data ++ ['.'] ++ (TermString fl b).data = _
        simp
      rw [hdata] at hfuel ⊢
      rw [List.cons_append]
      obtain ⟨g', rfl⟩ : ∃ g', g = g' + 1 := ⟨g - 1, by simp at hfuel; omega⟩
      rw [parseExpr_lam (g'+1) ((p.data ++ ('.' :: (TermString fl b).data)) ++ rest) pos]
      have hbody : (p.data ++ ('.' :: (TermString fl b).data)) ++ rest
          = pc :: (pcs ++ ('.' :: ((TermString fl b).data ++ rest))) := by
        rw [hpd]
        simp
      rw [hbody]
      rw [parseAbstraction_step g' pc pcs ((TermString fl b).data ++ rest) pos
        (charAlpha_facts pc hpalpha).2.1 hpall]
      have hL2 := (IH g' (by omega)).2.1 b fl rest (pos + 1 + 1 + pcs.length + 1)
        hg.2 hstop (by
          have h2 := hfuel
          rw [hpd] at h2
          simp at h2 ⊢
          omega)
      simp only [hL2]
      have hp : (⟨pc :: pcs⟩ : String) = p := by rw [← hpd]
      rw [hp]
      have harith : pos + 1 + 1 + pcs.length + 1 + (TermString fl b).data.length
          = pos + ('λ' :: (p.data ++ ('.' :: (TermString fl b).data))).length := by
        rw [hpd]
        simp only [List.length_cons, List.length_append]
        omega
      rw [harith]
    | Var n =>
      -- application route with an empty spine argument list
      obtain ⟨c, cs, hd, halpha, hall⟩ := goodId_spec n hg
      have hcfacts := charIdent_facts c (charAlpha_facts c halpha).1
      have ha : argString fl (Term.Var n) = n := by
        have h1 : argString fl (Term.Var n) = TermString fl (Term.Var n) := rfl
        rw [h1, TermString_var]
      rw [TermString_var] at hfuel ⊢
      rw [hd] at hfuel ⊢
      rw [List.cons_append]
      obtain ⟨g', rfl⟩ : ∃ g', g = g' + 1 := ⟨g - 1, by
        have h2 := hfuel; simp at h2; omega⟩
      rw [parseExpr_notlam (g'+1) c (cs ++ rest) pos hcfacts.1 hcfacts.2.1 hcfacts.2.2.1]
      simp only [parseApplication]
      have hL1 := (IH g' (by omega)).1 (Term.Var n) fl rest pos hg
        (hstopident rest hstop) (by
          rw [ha, hd]
          have h2 := hfuel
          simp only [List.length_cons] at h2 ⊢
          omega)
      rw [ha, hd, List.cons_append] at hL1
      simp only [hL1]
      have hL3 := (IH g' (by omega)).2.2 [] (Term.Var n) fl rest
        (pos + (c :: cs).length) (by intro a ha'; cases ha') hstop (by
          simp [argsChars]
          have h2 := hfuel
          simp at h2
          omega)
      simp only [argsChars, List.nil_append, List.length_nil, Nat.add_zero] at hL3
      simp only [hL3]
      rfl
    | Application f a =>
      rw [GoodTerm, Bool.and_eq_true] at hg
      have hgapp : GoodTerm (Term.Application f a) = true := by
        rw [GoodTerm, Bool.and_eq_true]; exact hg
      obtain ⟨hgh, hgargs⟩ := GoodTerm_spine (Term.Application f a) hgapp
      have hdecomp := spine_chars fl f a
      have hnotapp := spineHead_not_app (Term.Application f a)
      have hfa : funcString fl (spineHead (Term.Application f a))
          = argString fl (spineHead (Term.Application f a)) :=
        funcString_eq_argString fl _ hnotapp
      obtain ⟨hc, hcs, hhd, hhead⟩ := funcString_head fl (spineHead (Term.Application f a)) hgh
      -- head argument list is nonempty, so the boundary after the head is a space
      have hargsne : spineArgs (Term.Application f a) ≠ [] := spineArgs_ne_nil f a
      obtain ⟨a0, as0, hargs⟩ : ∃ a0 as0, spineArgs (Term.Application f a) = a0 :: as0 := by
        cases hargs : spineArgs (Term.Application f a) with
        | nil => exact absurd hargs hargsne
        | cons a0 as0 => exact ⟨a0, as0, rfl⟩
      have hcws : hc.isWhitespace = false := by
        rcases hhead with h | h
        · exact (charIdent_facts hc (charAlpha_facts hc h).1).1
        · subst h; decide
      have hc1 : hc ≠ 'λ' := by
        rcases hhead with h | h
        · exact (charIdent_facts hc (charAlpha_facts hc h).1).2.1
        · subst h; decide
      have hc2 : hc ≠ '\\' := by
        rcases hhead with h | h
        · exact (charIdent_facts hc (charAlpha_facts hc h).1).2.2.1
        · subst h; decide
      rw [hdecomp] at hfuel ⊢
      rw [List.append_assoc, hhd, List.cons_append]
      obtain ⟨g', rfl⟩ : ∃ g', g = g' + 1 := ⟨g - 1, by
        have h2 := hfuel
        rw [hargs] at h2; simp [argsChars] at h2; omega⟩
      rw [parseExpr_notlam (g'+1) hc
        (hcs ++ (argsChars fl (spineArgs (Term.Application f a)) ++ rest)) pos hcws hc1 hc2]
      simp only [parseApplication]
      have hL1 := (IH g' (by omega)).1 (spineHead (Term.Application f a)) fl
        (argsChars fl (spineArgs (Term.Application f a)) ++ rest) pos hgh
        (by
          rw [hargs]
          rintro d ds ⟨rfl, rfl⟩
          decide)
        (by
          rw [← hfa]
          rw [hargs] at hfuel
          simp [argsChars] at hfuel ⊢
          omega)
      rw [← hfa] at hL1
      rw [hhd, List.cons_append] at hL1
      simp only [hL1]
      have hL3 := (IH g' (by omega)).2.2 (spineArgs (Term.Application f a))
        (spineHead (Term.Application f a)) fl rest
        (pos + (hc :: hcs).length) hgargs hstop (by
          have h3 : (funcString fl (spineHead (Term.Application f a))).length
              = hcs.length + 1 := by
            have h4 := congrArg List.length hhd
            simpa using h4
          rw [hargs] at hfuel ⊢
          simp [argsChars] at hfuel ⊢
          omega)
      simp only [hL3]
      rw [spine_foldl (Term.Application f a)]
      have hlen : ((hc :: hcs) ++ argsChars fl (spineArgs (Term.Application f a))).length
          = (hc :: hcs).length + (argsChars fl (spineArgs (Term.Application f a))).length := by
        rw [List.length_append]
      rw [hlen]
      have harith : pos + (hc :: hcs).length
            + (argsChars fl (spineArgs (Term.Application f a))).length
          = pos + ((hc :: hcs).length
            + (argsChars fl (spineArgs (Term.Application f a))).length) := by omega
      rw [harith]
  -- Part 3: the application loop on a rendered argument list
  · intro args left fl rest pos hargs hstop hfuel
    obtain ⟨g, rfl⟩ : ∃ g, fuel = g + 1 := ⟨fuel - 1, by omega⟩
    cases args with
    | nil =>
      simp only [argsChars, List.nil_append, List.length_nil, Nat.add_zero]
      simp only [parseAppLoop]
      rw [skipWhitespace_noop _ (hstopws rest hstop)]
      rcases hstop with rfl | ⟨rs, rfl⟩
      · rfl
      · rfl
    | cons a0 as0 =>
      have hga0 : GoodTerm a0 = true := hargs a0 (by simp)
      obtain ⟨c0, cs0, hd0, hhead0⟩ := argString_head fl a0 hga0
      simp only [argsChars]
      rw [List.cons_append, List.cons_append, List.append_assoc]
      simp only [parseAppLoop]
      have hskip1 : skipWhitespace
          ⟨' ' :: ((argString fl a0).data ++ (argsChars fl as0 ++ rest)), pos⟩
          = ⟨(argString fl a0).data ++ (argsChars fl as0 ++ rest), pos + 1⟩ := by
        unfold skipWhitespace
        rw [skipWhitespaceCore_space _ pos (by
          rw [hd0]
          intro c cs' heq
          injection heq with h1 _
          subst h1
          rcases hhead0 with h | h
          · exact (charIdent_facts c0 (charAlpha_facts c0 h).1).1
          · subst h; decide)]
      rw [hskip1]
      rw [hd0, List.cons_append]
      have hnotrp : c0 ≠ ')' := by
        rcases hhead0 with h | h
        · exact (charIdent_facts c0 (charAlpha_facts c0 h).1).2.2.2.2.1
        · subst h; decide
      -- the match sees a cons whose head is not ')'
      have hboundary : ∀ d ds, (argsChars fl as0 ++ rest) = d :: ds →
          isIdentChar d = false := by
        cases as0 with
        | nil =>
          simp only [argsChars, List.nil_append]
          exact hstopident rest hstop
        | cons a1 as1 =>
          simp only [argsChars]
          rintro d ds ⟨rfl, rfl⟩
          decide
      have hL1 := (IH g (by omega)).1 a0 fl (argsChars fl as0 ++ rest) (pos + 1) hga0
        hboundary (by
          simp [argsChars] at hfuel ⊢
          omega)
      rw [hd0, List.cons_append] at hL1
      have hL3 := (IH g (by omega)).2.2 as0 (Term.Application left a0) fl rest
        (pos + 1 + (c0 :: cs0).length) (fun a ha => hargs a (by simp [ha])) hstop (by
          simp [argsChars] at hfuel ⊢
          omega)
      split
      · rename_i heq; cases heq
      · rename_i rs heq
        injection heq with h1 _
        exact absurd h1 hnotrp
      · rename_i c1 tail heq
        simp only [hL1]
        simp only [hL3]
        have hfold : (a0 :: as0).foldl Term.Application left
            = as0.foldl Term.Application (Term.Application left a0) := rfl
        rw [hfold]
        have harith : pos + (' ' :: ((c0 :: cs0) ++ argsChars fl as0)).length
            = pos + 1 + (c0 :: cs0).length + (argsChars fl as0).length := by
          simp only [List.length_cons, List.length_append]
          omega
        rw [harith]

/-- Top-level round trip: `Parse` inverts the renderer on every good term
(all identifiers alphabetic-led and well formed). -/
theorem parse_render_roundtrip_any (t : Term) (fl : Nat) (hg : GoodTerm t = true) :
    Parse (TermString fl t) = Except.ok t := by
  obtain ⟨c, cs, hd, hhead⟩ := TermString_head fl t hg
  have hws : ∀ d ds, (TermString fl t).data = d :: ds → d.isWhitespace = false := by
    intro d ds heq
    rw [hd] at heq
    injection heq with h1 _
    subst h1
    rcases hhead with h | h | h
    · exact (charIdent_facts c (charAlpha_facts c h).1).1
    · subst h; decide
    · subst h; decide
  have hlastws : ∀ l, (TermString fl t).data.getLast? = some l →
      l.isWhitespace = false := by
    obtain ⟨l, hl, hli⟩ := render_last fl t hg
    intro l' hl'
    rw [hl] at hl'
    injection hl' with h1
    subst h1
    rcases hli with h | h
    · exact (charIdent_facts l h).1
    · subst h; decide
  have htrim : trimChars (TermString fl t).data = (TermString fl t).data :=
    trimChars_noop _ hws hlastws
  have hL2 := (parser_roundtrip_aux (parseFuel (TermString fl t).data)).2.1 t fl [] 0 hg
    (Or.inl rfl) (by unfold parseFuel; omega)
  rw [List.append_nil] at hL2
  simp only [Parse]
  rw [htrim]
  rw [hL2]
  rfl

/-- C3 (corrected): for every hand-built term all of whose identifiers
satisfy the identifier invariant and moreover begin with a letter
(`GoodTerm`), `Parse` of the rendered string (`TermString`, whose
`funcString`/`argString` positions parenthesize exactly abstractions on the
function side and applications or abstractions on the argument side)
succeeds and returns the term unchanged. The leading-letter restriction is
necessary: underscore-led names are reserved for constant resolution. -/
theorem parse_render_roundtrip (t : Term) (fl : Nat) (hg : GoodTerm t = true) :
    Parse (TermString fl t) = Except.ok t :=
  parse_render_roundtrip_any t fl hg

theorem parse_render_roundtrip_witness :
    GoodTerm (Term.Application (Term.Abstraction "x" (Term.Var "x")) (Term.Var "y")) = true
      ∧ Parse (TermString 0 (Term.Application (Term.Abstraction "x" (Term.Var "x"))
          (Term.Var "y")))
        = Except.ok (Term.Application (Term.Abstraction "x" (Term.Var "x")) (Term.Var "y")) :=
  ⟨by decide, parse_render_roundtrip
    (Term.Application (Term.Abstraction "x" (Term.Var "x")) (Term.Var "y")) 0 (by decide)⟩

/-- C3 counterexample: the original claim fails on `Var "_0"`, whose name
matches the spec's identifier invariant: it renders as "_0" but parses back
as the Church numeral 0, not as the variable itself. -/
theorem roundtrip_counterexample :
    TermString 0 (Term.Var "_0") = "_0"
      ∧ Parse "_0" = Except.ok (ChurchNumeral 0)
      ∧ Parse (TermString 0 (Term.Var "_0")) ≠ Except.ok (Term.Var "_0") := by
  refine ⟨TermString_var 0 "_0", by decide, ?_⟩
  rw [TermString_var 0 "_0"]
  decide

end LambdaGo
